import Mathlib

/-!
Verification of the graph algorithm engine of `GraphCanvas.jsx` (with entry
point `App.jsx` and the auxiliary `NodeTable.jsx`).

The engine is shallowly embedded: node ids, edge weights and levels are `Nat`
(the source parses them with `Number` from `\d+` digit strings), the mutable
arrays and `Set`s of the JavaScript become explicit state records threaded
through the recursion, and the recursion of `dfsUndirected` / `dfsDirected` /
the BFS `while` loop of `hangTreeFromRoot` is made structural with a fuel
parameter (chosen large enough; sufficiency is proved where a universal
statement needs it).  Strings are handled through their underlying character
lists (`String.data`) so that every definition evaluates inside the kernel.
Code that only drives the canvas (coloring, `sleep` pacing, drawing) is
modelled only where a claim observes it (highlight events of
`findAllPathsBetweenNodes`); pure presentation (pixel positions, gradients)
is not modelled.
-/

namespace GraphCanvas

/-- An edge record as produced by `parseInput`:
`{ from: a, to: b, weight, isSelfLoop: a === b }` (GraphCanvas.jsx:38).
The JavaScript fields `from`/`to` are Lean keywords, hence `from_`/`to_`. -/
structure Edge where
  from_ : Nat
  to_ : Nat
  weight : Nat
  isSelfLoop : Bool
deriving DecidableEq, Repr

/-- The graph model: the declared node ids in declaration order (the engine
only reads `node.id`; position/label/color are presentation) and the edge
list in declaration order.  The `directed` flag is separate React state
(`isDirected`) and is passed to each operation explicitly. -/
structure Graph where
  nodes : List Nat
  edges : List Edge
deriving DecidableEq, Repr

/-- `Number(s)` on an all-digit string: its decimal value. -/
def strToNat (s : List Char) : Nat :=
  s.foldl (fun n c => n * 10 + (c.toNat - 48)) 0

/-- `input.split("\n")` on the character list of the input. -/
def splitNl : List Char → List (List Char)
  | [] => [[]]
  | c :: cs =>
    let r := splitNl cs
    if c = '\n' then [] :: r
    else (c :: r.headI) :: r.tail

/-- `l.trim()`: drop leading and trailing whitespace. -/
def trimChars (l : List Char) : List Char :=
  ((l.dropWhile Char.isWhitespace).reverse.dropWhile Char.isWhitespace).reverse

/-- Split a character list at whitespace characters (keeping empty pieces). -/
def splitWs : List Char → List (List Char)
  | [] => [[]]
  | c :: cs =>
    let r := splitWs cs
    if Char.isWhitespace c then [] :: r
    else (c :: r.headI) :: r.tail

/-- `line.split(/\s+/)` on a trimmed line: the maximal runs of
non-whitespace characters. -/
def wsParts (l : List Char) : List (List Char) :=
  (splitWs l).filter (fun p => p ≠ [])

/-- The line preprocessing of `parseInput` (GraphCanvas.jsx:30):
`input.split("\n").map(l => l.trim()).filter(Boolean)`. -/
def parseLines (input : String) : List (List Char) :=
  ((splitNl input.data).map trimChars).filter (fun l => l ≠ [])

/-- Test for the node-line pattern `^\d+$` on a trimmed line. -/
def isNodeLine (l : List Char) : Bool :=
  !l.isEmpty && l.all Char.isDigit

/-- Test/decomposition for the edge-line pattern `^\d+\s+\d+(\s+\d+)?$` on a
trimmed line: two or three whitespace-separated digit runs and nothing else.
Mirrors `line.split(/\s+/).map(Number)` with `weight = 1` as default
(GraphCanvas.jsx:35-37). -/
def edgeTriple? (l : List Char) : Option (Nat × Nat × Nat) :=
  match wsParts l with
  | [a, b] =>
    if a.all Char.isDigit && b.all Char.isDigit then
      some (strToNat a, strToNat b, 1)
    else none
  | [a, b, c] =>
    if a.all Char.isDigit && b.all Char.isDigit && c.all Char.isDigit then
      some (strToNat a, strToNat b, strToNat c)
    else none
  | _ => none

/-- One step of the line loop of `parseInput` (GraphCanvas.jsx:33-40):
a node line pushes its id, an edge line pushes an edge record, any other
line is silently ignored.  There is no deduplication of node ids and no
check that an edge's endpoints are declared. -/
def parseLine (g : Graph) (l : List Char) : Graph :=
  if isNodeLine l then { g with nodes := g.nodes ++ [strToNat l] }
  else
    match edgeTriple? l with
    | some (a, b, w) =>
      { g with edges := g.edges ++ [{ from_ := a, to_ := b, weight := w, isSelfLoop := a == b }] }
    | none => g

/-- `parseInput` (GraphCanvas.jsx:29-61), restricted to the graph model it
builds (`nodeIds`, `edgeList`); the circular initial layout it also computes
is presentation. -/
def parseInput (input : String) : Graph :=
  (parseLines input).foldl parseLine { nodes := [], edges := [] }

/-- `getNeighbors` from `findAllPathsBetweenNodes` (GraphCanvas.jsx:268-275):
directed: targets of outgoing non-self-loop edges; undirected: the other
endpoint of every non-self-loop edge touching the node.  Edge-list order. -/
def getNeighbors (g : Graph) (directed : Bool) (id : Nat) : List Nat :=
  if directed then
    (g.edges.filter (fun e => e.from_ == id && !e.isSelfLoop)).map (·.to_)
  else
    (g.edges.filter (fun e => (e.from_ == id || e.to_ == id) && !e.isSelfLoop)).map
      (fun e => if e.from_ == id then e.to_ else e.from_)

/-! ## Cycle detection (`detectCycles`, GraphCanvas.jsx:320-432) -/

/-- `[...cycle].sort((a, b) => a - b)`: the ascending sorted copy used by the
cycle dedup check. -/
def sortAsc (l : List Nat) : List Nat :=
  l.insertionSort (· ≤ ·)

/-- The dedup test
`allCycles.some(cy => cy.length === cycle.length && cy.sort((a,b)=>a-b).every((v,i)=>v===cycleSorted[i]))`
(GraphCanvas.jsx:354 and 397).  `cy.sort` sorts the stored array **in place**,
so the test both returns whether a same-length, same-sorted-content cycle is
already stored and rewrites every same-length stored cycle up to (and
including) the first match to its sorted form; `some` stops at the first
match.  The first component is the test's value, the second the mutated
`allCycles`.  (`every` over two arrays of equal length is list equality.) -/
def dedupSome (cycleSorted : List Nat) (len : Nat) : List (List Nat) → Bool × List (List Nat)
  | [] => (false, [])
  | cy :: rest =>
    if cy.length = len then
      let cy' := sortAsc cy
      if cy' = cycleSorted then (true, cy' :: rest)
      else
        let r := dedupSome cycleSorted len rest
        (r.1, cy' :: r.2)
    else
      let r := dedupSome cycleSorted len rest
      (r.1, cy :: r.2)

/-- State of the undirected cycle search: the global `visited` set, the
`allCycles` accumulator, and — as pure instrumentation for observing the
traversal — `discovered`, a copy of each `cycle` value (the path slice of
GraphCanvas.jsx:352) at the moment it is appended to `allCycles`.
`discovered` is written exactly when `allCycles` is extended and read by
nothing, so it does not influence the embedded computation. -/
structure UState where
  visited : List Nat
  allCycles : List (List Nat)
  discovered : List (List Nat)
deriving DecidableEq, Repr

/-- The cycle-closing branch of `dfsUndirected` (GraphCanvas.jsx:350-364):
run the (mutating) dedup test and append the candidate when it is new. -/
def pushCycleU (st : UState) (cycle : List Nat) : UState :=
  let r := dedupSome (sortAsc cycle) cycle.length st.allCycles
  if r.1 then { st with allCycles := r.2 }
  else { st with allCycles := r.2 ++ [cycle], discovered := st.discovered ++ [cycle] }

/-- The other endpoint of an edge touching `nodeId`
(`e.from === nodeId ? e.to : e.from`). -/
def otherEnd (e : Edge) (nodeId : Nat) : Nat :=
  if e.from_ == nodeId then e.to_ else e.from_

/-- The neighbor-edge filter of `dfsUndirected` (GraphCanvas.jsx:341-346):
non-self-loop edges touching `nodeId` whose other endpoint is not the
`parent`.  The initial call passes `parent = -1`, hence `parent : Int`. -/
def undirectedNeighborEdges (g : Graph) (nodeId : Nat) (parent : Int) : List Edge :=
  g.edges.filter fun e =>
    !e.isSelfLoop && (e.from_ == nodeId || e.to_ == nodeId) &&
      ((otherEnd e nodeId : Int) != parent)

/-- `dfsUndirected` (GraphCanvas.jsx:336-369).  `fuel` bounds the recursion
depth (the source recursion terminates because every recursive call is on an
unvisited node); at fuel 0 the state is returned unchanged, and all
universal statements below are proved for every fuel.  A neighbor already on
the current `path` closes the cycle `path.slice(path.indexOf(neighbor)) ++
[nodeId]`; an unvisited neighbor is recursed into with the current node as
parent; the visited check uses the up-to-date `visited` set. -/
def dfsUndirected (g : Graph) : Nat → Nat → Int → List Nat → UState → UState
  | 0, _, _, _, st => st
  | fuel + 1, nodeId, parent, path, st =>
    let st := { st with visited := st.visited ++ [nodeId] }
    (undirectedNeighborEdges g nodeId parent).foldl
      (fun st e =>
        let neighbor := otherEnd e nodeId
        if neighbor ∈ path then
          pushCycleU st (path.drop (path.indexOf neighbor) ++ [nodeId])
        else if neighbor ∈ st.visited then st
        else dfsUndirected g fuel neighbor (nodeId : Int) (path ++ [nodeId]) st)
      st

/-- The single-node cycles `[selfLoop.from]` pushed for every self-loop edge
before either search starts (GraphCanvas.jsx:325-332), in edge-list order. -/
def selfLoopCycles (g : Graph) : List (List Nat) :=
  (g.edges.filter (·.isSelfLoop)).map (fun e => [e.from_])

/-- Search-depth bound: along one recursion chain every call visits a fresh
node id, and every id mentioned anywhere is a declared node or an edge
endpoint. -/
def dfsFuel (g : Graph) : Nat :=
  g.nodes.length + 2 * g.edges.length + 1

/-- The undirected branch of `detectCycles` (GraphCanvas.jsx:334-375) run
after the self-loop pass: `for (node of nodes) if (!visited.has(node.id))
dfsUndirected(node.id, -1, [])`. -/
def detectCyclesUState (g : Graph) : UState :=
  g.nodes.foldl
    (fun st nid => if nid ∈ st.visited then st else dfsUndirected g (dfsFuel g) nid (-1) [] st)
    { visited := [], allCycles := selfLoopCycles g, discovered := [] }

/-- State of the directed cycle search (GraphCanvas.jsx:377-379):
`globalVisited`, the explicit recursion `stack`, the `onStack` marker set,
and `allCycles`. -/
structure DState where
  globalVisited : List Nat
  stack : List Nat
  onStack : List Nat
  allCycles : List (List Nat)
deriving DecidableEq, Repr

/-- `dfsDirected` (GraphCanvas.jsx:381-414).  The source also threads a
`path` argument, but it is only passed along and never read, so it is
omitted.  An edge to a node on the stack closes the cycle
`stack.slice(stack.indexOf(neighbor))`; after the (mutating) dedup test the
stored cycle is `[...cycle, neighbor]`, with the closing node appended.  On
return the node is popped from the stack and removed from `onStack`. -/
def dfsDirected (g : Graph) : Nat → Nat → DState → DState
  | 0, _, st => st
  | fuel + 1, nodeId, st =>
    let st := { st with
      stack := st.stack ++ [nodeId]
      onStack := st.onStack ++ [nodeId]
      globalVisited := st.globalVisited ++ [nodeId] }
    let st := (g.edges.filter (fun e => e.from_ == nodeId && !e.isSelfLoop)).foldl
      (fun st e =>
        let neighbor := e.to_
        if neighbor ∈ st.globalVisited then
          if neighbor ∈ st.onStack then
            let cycle := st.stack.drop (st.stack.indexOf neighbor)
            let r := dedupSome (sortAsc cycle) cycle.length st.allCycles
            if r.1 then { st with allCycles := r.2 }
            else { st with allCycles := r.2 ++ [cycle ++ [neighbor]] }
          else st
        else dfsDirected g fuel neighbor st)
      st
    { st with stack := st.stack.dropLast, onStack := st.onStack.erase nodeId }

/-- The directed branch of `detectCycles` (GraphCanvas.jsx:376-421) run after
the self-loop pass. -/
def detectCyclesDState (g : Graph) : DState :=
  g.nodes.foldl
    (fun st nid => if nid ∈ st.globalVisited then st else dfsDirected g (dfsFuel g) nid st)
    { globalVisited := [], stack := [], onStack := [], allCycles := selfLoopCycles g }

/-- `detectCycles` (GraphCanvas.jsx:320-432) restricted to its result value:
`setFoundCycles(allCycles.map(c => [...c]))` — self-loop cycles first, then
the cycles found by the per-directedness search. -/
def detectCycles (g : Graph) (isDirected : Bool) : List (List Nat) :=
  if isDirected then (detectCyclesDState g).allCycles
  else (detectCyclesUState g).allCycles

/-! ## All simple paths (`findAllPathsBetweenNodes`, GraphCanvas.jsx:257-317) -/

/-- The recursive `dfs` of `findAllPathsBetweenNodes` (GraphCanvas.jsx:277-291):
mark current visited, append to the path; if current equals the target record
a copy of the path, else recurse into every unvisited neighbor; on return
unmark and pop.  In the source `visited`/`path` are restored exactly to their
entry values on return, so they are threaded functionally; `acc` accumulates
`allPaths`. -/
def pathsDfs (g : Graph) (directed : Bool) (tgt : Nat) :
    Nat → Nat → List Nat → List Nat → List (List Nat) → List (List Nat)
  | 0, _, _, _, acc => acc
  | fuel + 1, current, visited, path, acc =>
    let visited := visited ++ [current]
    let path := path ++ [current]
    if current = tgt then acc ++ [path]
    else
      (getNeighbors g directed current).foldl
        (fun acc neighbor =>
          if neighbor ∈ visited then acc
          else pathsDfs g directed tgt fuel neighbor visited path acc)
        acc

/-- A highlight event sent to the renderer: the recoloring calls
`setEdges`/`setNodes` (reset to base colors, GraphCanvas.jsx:300-301) and
`highlightEdge`/`setNodeColor` (GraphCanvas.jsx:307, 310). -/
inductive HEvent
  | resetEdges
  | resetNodes
  | edge (from_ to_ : Nat) (color : String)
  | node (id : Nat) (color : String)
deriving DecidableEq, Repr

/-- The per-path highlight palette (GraphCanvas.jsx:295-298). -/
def pathColors : List String :=
  ["#ef4444", "#3b82f6", "#f59e0b", "#06b6d4", "#22c55e", "#ec4899",
   "#8b5cf6", "#84cc16", "#eab308", "#f43f5e", "#a21caf", "#0ea5e9"]

/-- The observable outcome of one `findAllPathsBetweenNodes` run: the final
`pathsBetweenNodes` value, the highlight events emitted in order, and the
number of `sleep` suspensions of the animation loop (0 = the paced trace
never ran). -/
structure PathsRun where
  paths : List (List Nat)
  events : List HEvent
  sleeps : Nat
deriving DecidableEq, Repr

/-- The highlight events of the animation loop (GraphCanvas.jsx:303-313) for
one discovered path: its consecutive edges then its nodes, in the path's
color. -/
def pathEvents (i : Nat) (path : List Nat) : List HEvent :=
  let color := pathColors.getD (i % pathColors.length) ""
  (path.zip path.tail).map (fun p => HEvent.edge p.1 p.2 color) ++
    path.map (fun n => HEvent.node n color)

/-- `findAllPathsBetweenNodes` (GraphCanvas.jsx:257-317).  With other than
exactly two selected nodes it resets `pathsBetweenNodes` to `[]` and returns
before searching or emitting anything (GraphCanvas.jsx:260-263); otherwise it
searches from `selectedNodes[0]` to `selectedNodes[1]`, resets all colors and
animates each found path with one `sleep` per path. -/
def findAllPathsBetweenNodes (g : Graph) (directed : Bool) (selectedNodes : List Nat) :
    PathsRun :=
  match selectedNodes with
  | [start, tgt] =>
    let allPaths := pathsDfs g directed tgt (dfsFuel g) start [] [] []
    { paths := allPaths
      events := [HEvent.resetEdges, HEvent.resetNodes] ++
        (allPaths.enum.map (fun p => pathEvents p.1 p.2)).flatten
      sleeps := allPaths.length }
  | _ => { paths := [], events := [], sleeps := 0 }

/-- The node-selection step of `handleMouseDown` in `findpaths` mode
(GraphCanvas.jsx:115-122): while fewer than two nodes are selected, clicking
a node appends its id unless it is already selected. -/
def addSelectedNode (selectedNodes : List Nat) (id : Nat) : List Nat :=
  if selectedNodes.length < 2 then
    if id ∈ selectedNodes then selectedNodes else selectedNodes ++ [id]
  else selectedNodes

/-! ## Tree layering (`hangTreeFromRoot`, GraphCanvas.jsx:196-254) -/

/-- `childMap.get(k).push(v)`: append `v` to the child list of key `k`;
`none` when `k` is not a key (in the source `childMap.get(k)` is `undefined`
and `.push` throws a `TypeError`). -/
def cmPush : List (Nat × List Nat) → Nat → Nat → Option (List (Nat × List Nat))
  | [], _, _ => none
  | (k', vs) :: rest, k, v =>
    if k' = k then some ((k', vs ++ [v]) :: rest)
    else (cmPush rest k v).map ((k', vs) :: ·)

/-- `childMap.get(k)`. -/
def cmLookup (cm : List (Nat × List Nat)) (k : Nat) : Option (List Nat) :=
  (cm.find? (fun p => p.1 == k)).map (·.2)

/-- One edge of the `childMap` construction (GraphCanvas.jsx:203-212):
a non-self-loop edge appends `to` to `from`'s children (and, when
undirected, also `from` to `to`'s children).  A dangling endpoint makes the
step fail (`TypeError` in the source). -/
def buildChildMapStep (directed : Bool) (cm : List (Nat × List Nat)) (e : Edge) :
    Option (List (Nat × List Nat)) :=
  if e.isSelfLoop then some cm
  else if directed then cmPush cm e.from_ e.to_
  else do
    let cm ← cmPush cm e.from_ e.to_
    cmPush cm e.to_ e.from_

/-- The `childMap` construction (GraphCanvas.jsx:201-212): `new Map` keyed
by `n.id` keeps one empty child list per distinct declared id (modelled with
`dedup`), then `edges.forEach` applies `buildChildMapStep`. -/
def buildChildMap (g : Graph) (directed : Bool) : Option (List (Nat × List Nat)) :=
  g.edges.foldlM (buildChildMapStep directed)
    (g.nodes.dedup.map (fun n => (n, ([] : List Nat))))

/-- `levels[level].push(node)` with `levels[level] = []` created on demand
(GraphCanvas.jsx:223-224).  Out-of-range levels are padded with empty lists;
in the source such a gap would be a hole in the array, but the BFS below
only ever writes at index `levels.length - 1` or `levels.length`. -/
def addToLevel (ls : List (List Nat)) (lvl : Nat) (n : Nat) : List (List Nat) :=
  if lvl < ls.length then ls.set lvl (ls.getD lvl [] ++ [n])
  else ls ++ List.replicate (lvl - ls.length) [] ++ [[n]]

/-- The BFS `while (queue.length)` loop of `hangTreeFromRoot`
(GraphCanvas.jsx:218-229): pop from the front, skip visited nodes, record
the node at its level, and push the unvisited children at `level + 1`.
`fuel` bounds the iteration count (`none` = ran out; `bfsFuel` below is
proved sufficient); a popped node absent from `childMap` is the source's
`TypeError`, also `none`.  The parent component of the queue entries is
never read and is omitted. -/
def bfsLoop (cm : List (Nat × List Nat)) :
    Nat → List (Nat × Nat) → List Nat → List (List Nat) → Option (List (List Nat))
  | _, [], _, levels => some levels
  | 0, _ :: _, _, _ => none
  | fuel + 1, (node, level) :: rest, visited, levels =>
    if node ∈ visited then bfsLoop cm fuel rest visited levels
    else
      match cmLookup cm node with
      | none => none
      | some children =>
        let visited := visited ++ [node]
        bfsLoop cm fuel
          (rest ++ (children.filter (· ∉ visited)).map (fun c => (c, level + 1)))
          visited (addToLevel levels level node)

/-- Fuel bound for `bfsLoop`: every iteration pops one entry, and at most
`1 + Σ |children|` entries are ever enqueued. -/
def bfsFuel (cm : List (Nat × List Nat)) : Nat :=
  2 + (cm.map (fun p => p.2.length + 1)).sum

/-- `hangTreeFromRoot` (GraphCanvas.jsx:196-254) restricted to its level
assignment: the per-level membership lists `levels` (the node → level map:
node `n` has level `l` iff `n ∈ levels[l]`).  The subsequent x/y position
assignment (GraphCanvas.jsx:231-253) is determined by `levels` and is
presentation.  `none` models the `TypeError` thrown on a graph whose edges
reference undeclared node ids. -/
def hangTreeFromRoot (g : Graph) (directed : Bool) (rootId : Nat) :
    Option (List (List Nat)) :=
  match buildChildMap g directed with
  | none => none
  | some cm => bfsLoop cm (bfsFuel cm) [(rootId, 0)] [] []

/-- One whole BFS level, processed frontier-first: skip visited nodes, visit
the rest in order, returning the final visited list, the newly visited nodes
(in visit order) and the children enqueued for the next level (in enqueue
order).  `bfsLoop` on a single-level queue is exactly one `processFrontier`
step (`bfsLoop_phase` below). -/
def processFrontier (cm : List (Nat × List Nat)) :
    List Nat → List Nat → Option (List Nat × List Nat × List Nat)
  | [], visited => some (visited, [], [])
  | n :: fr, visited =>
    if n ∈ visited then processFrontier cm fr visited
    else
      match cmLookup cm n with
      | none => none
      | some children =>
        (processFrontier cm fr (visited ++ [n])).map
          (fun r => (r.1, n :: r.2.1, (children.filter (· ∉ visited ++ [n])) ++ r.2.2))

/-- The children an edge list contributes to the child-map entry of `k`,
in push order (for every non-self-loop edge: `from → to`, and `to → from`
when undirected). -/
def edgeChildren (directed : Bool) (k : Nat) (es : List Edge) : List Nat :=
  es.flatMap fun e =>
    if e.isSelfLoop then []
    else if directed then (if e.from_ == k then [e.to_] else [])
    else (if e.from_ == k then [e.to_] else []) ++ (if e.to_ == k then [e.from_] else [])

/-- Termination measure for the BFS: one unit per remaining queue slot that
an unvisited key can still contribute (its pop plus its children). -/
def cmWeight (cm : List (Nat × List Nat)) (visited : List Nat) : Nat :=
  ((cm.filter (fun p => p.1 ∉ visited)).map (fun p => p.2.length + 1)).sum

/-- Specification-side reachability (spec §4.5, §8): the ids reachable from
`root` within at most `k` hops under the §4.2 neighbor semantics.  The BFS
shortest hop-distance of `n` is `l` iff `n ∈ reachList l` and `n ∉ reachList
j` for every `j < l`. -/
def reachList (g : Graph) (directed : Bool) (root : Nat) : Nat → List Nat
  | 0 => [root]
  | k + 1 =>
    reachList g directed root k ++
      (reachList g directed root k).flatMap (getNeighbors g directed)

/-- The level list of a layering at index `l` (absent levels are empty). -/
def levelAt (levels : List (List Nat)) (l : Nat) : List Nat :=
  levels.getD l []

/-! ## Specification-side cycle notion (spec §3 "Cycle" and glossary) -/

/-- Specification-side undirected adjacency: some non-self-loop edge joins
`a` and `b` in either orientation. -/
def spec_adjacentU (g : Graph) (a b : Nat) : Bool :=
  g.edges.any fun e =>
    !e.isSelfLoop && ((e.from_ == a && e.to_ == b) || (e.from_ == b && e.to_ == a))

/-- Specification-side elementary cycle under undirected semantics
(glossary: "a closed walk visiting no vertex more than once except the
implicit closure of start/end"; §3: "a self-loop is reported as a
single-element cycle `[v]`").  A single node is a cycle through a self-loop
edge; at least three distinct nodes, consecutively adjacent and closing back
to the start, form a multi-node cycle. -/
def spec_isElementaryCycleU (g : Graph) (c : List Nat) : Bool :=
  match c with
  | [] => false
  | [v] => g.edges.any fun e => e.isSelfLoop && e.from_ == v
  | _ :: _ :: _ =>
    decide (3 ≤ c.length) && decide c.Nodup &&
      (c.zip (c.rotate 1)).all fun p => spec_adjacentU g p.1 p.2

/-! ## Scenario graphs

Each is written as the graph description text it corresponds to and built
through `parseInput`, exactly as a user of the application would produce it.
-/

/-- The application's default graph (GraphCanvas.jsx:7) — the graph of the
spec's concrete scenarios 1 and 2: nodes 0–4, edges 0-1, 1-2, 2-3, 3-0,
1-4 and the self-loop 2-2. -/
def defaultGraph : Graph :=
  parseInput "0\n1\n2\n3\n4\n0 1\n1 2\n2 3\n3 0\n1 4\n2 2"

/-- The undirected graph of the spec's concrete scenarios 3 and 4 as stated
in the claims: nodes 0–4, edges 0-1, 1-2, 2-3, 3-0, 1-4. -/
def scenarioGraph : Graph :=
  parseInput "0\n1\n2\n3\n4\n0 1\n1 2\n2 3\n3 0\n1 4"

/-- A 4-node graph with three elementary cycles — the two triangles
{0,1,2} and {0,2,3} and the square {0,1,2,3}. -/
def diamondGraph : Graph :=
  parseInput "0\n1\n2\n3\n0 1\n1 2\n2 0\n2 3\n3 0"

/-- One node carrying two parallel self-loop edges. -/
def doubleLoopGraph : Graph :=
  parseInput "2\n2 2\n2 2"

/-- Two disjoint triangles; the first is declared in the node order 1, 0, 2
so that its cycle is discovered as the non-sorted slice [1, 0, 2]. -/
def twoTrianglesGraph : Graph :=
  parseInput "1\n0\n2\n3\n4\n5\n1 0\n0 2\n2 1\n3 4\n4 5\n5 3"

/-! ## Claim C1 — directed cycle scenario -/

/-- C1 counterexample: on the default graph under directed semantics,
CycleFinder does **not** return `[[2], [0, 1, 2, 3]]` — the directed branch
stores `[...cycle, neighbor]` (GraphCanvas.jsx:398), appending the closing
node. -/
theorem detectCycles_directed_scenario_ne_spec :
    detectCycles defaultGraph true ≠ [[2], [0, 1, 2, 3]] := by decide

/-- C1 amended: on the graph with nodes {0,1,2,3,4}, directed edges 0→1,
1→2, 2→3, 3→0, 1→4 and the self-loop 2→2, CycleFinder returns exactly
`[[2], [0, 1, 2, 3, 0]]` — the self-loop cycle first, and the directed cycle
reported with its starting node repeated at the end. -/
theorem detectCycles_directed_scenario :
    detectCycles defaultGraph true = [[2], [0, 1, 2, 3, 0]] := by decide

/-! ## Claim C2 — PathFinder scenario -/

/-- C2 counterexample: PathFinder from 0 to 4 on the undirected scenario
graph does **not** return just `[[0, 1, 4]]` — the simple path
0-3-2-1-4 also exists and is found. -/
theorem findAllPaths_scenario_ne_spec :
    (findAllPathsBetweenNodes scenarioGraph false [0, 4]).paths ≠ [[0, 1, 4]] := by decide

/-- C2 amended: on the undirected graph with nodes {0,1,2,3,4} and edges
0-1, 1-2, 2-3, 3-0, 1-4, PathFinder with source 0 and target 4 returns
exactly two paths, `[0, 1, 4]` and then `[0, 3, 2, 1, 4]`. -/
theorem findAllPaths_scenario :
    (findAllPathsBetweenNodes scenarioGraph false [0, 4]).paths =
      [[0, 1, 4], [0, 3, 2, 1, 4]] := by decide

/-! ## Claim C3 — completeness of cycle enumeration -/

/-- C3 counterexample: on the undirected graph with nodes {0,1,2,3} and
edges 0-1, 1-2, 2-0, 2-3, 3-0, the triangle 0-2-3 is an elementary cycle,
yet no cycle reported by CycleFinder has its sorted node-id multiset:
the DFS only closes cycles through edges back into the current path, and
the edge 2-0 is consumed while the path is [0, 1, 2]. -/
theorem detectCycles_misses_elementary_cycle :
    spec_isElementaryCycleU diamondGraph [0, 2, 3] = true ∧
      ∀ c ∈ detectCycles diamondGraph false, sortAsc c ≠ sortAsc [0, 2, 3] := by decide

/-- C3 amended: CycleFinder's output is not complete — it reports only the
cycles its DFS closes through an edge back into the current search path, and
can miss elementary cycles; on the graph with nodes {0,1,2,3} and undirected
edges 0-1, 1-2, 2-0, 2-3, 3-0 it returns exactly
`[[0, 1, 2], [0, 1, 2, 3]]`, missing the elementary cycle on {0, 2, 3}. -/
theorem detectCycles_diamond :
    detectCycles diamondGraph false = [[0, 1, 2], [0, 1, 2, 3]] := by decide

/-! ## Claim C4 — dangling edge references -/

/-- C4 (code bug): `parseInput` performs no membership check on edge
endpoints: parsing `"0\n0 1"` produces the edge 0→1 although node 1 is
declared nowhere, so an edge naming an undeclared node id does reach the
resulting edge list. -/
theorem parseInput_keeps_dangling_edge :
    (parseInput "0\n0 1").edges = [{ from_ := 0, to_ := 1, weight := 1, isSelfLoop := false }] ∧
      1 ∉ (parseInput "0\n0 1").nodes := by decide

/-! ## Claim C5 — duplicate node declarations -/

/-- C5 counterexample: parsing `"0\n0"` yields the node list `[0, 0]` — the
id 0 is declared twice and appears twice, not once; `parseInput` never
deduplicates node ids. -/
theorem parseInput_duplicate_nodes :
    (parseInput "0\n0").nodes = [0, 0] ∧ (parseInput "0\n0").nodes.count 0 ≠ 1 := by decide

/-- A line's contribution to the node list: node lines append their id,
edge and ignored lines leave it unchanged. -/
theorem parseLine_nodes_count (g : Graph) (l : List Char) (v : Nat) :
    (parseLine g l).nodes.count v =
      g.nodes.count v + (if isNodeLine l && strToNat l == v then 1 else 0) := by
  unfold parseLine
  by_cases h : isNodeLine l
  · by_cases hv : strToNat l = v <;>
      simp [h, hv, List.count_append, List.count_singleton']
  · simp only [h, Bool.false_and, Bool.false_eq_true, if_false]
    split <;> simp

/-- Folding `parseLine` over any line list adds one node-list occurrence of
`v` per node line declaring `v`. -/
theorem parseFold_nodes_count (lines : List (List Char)) (g : Graph) (v : Nat) :
    ((lines.foldl parseLine g).nodes.count v) =
      g.nodes.count v +
        (lines.filter (fun l => isNodeLine l && strToNat l == v)).length := by
  induction lines generalizing g with
  | nil => simp
  | cons l ls ih =>
    simp only [List.foldl_cons, List.filter_cons]
    rw [ih, parseLine_nodes_count]
    split
    · simp; omega
    · simp

/-- C5 amended: `parse` does not deduplicate node ids — for every input
text, an id `v` occurs in the resulting node list exactly as many times as
there are node lines declaring `v`. -/
theorem parseInput_node_count (input : String) (v : Nat) :
    (parseInput input).nodes.count v =
      ((parseLines input).filter (fun l => isNodeLine l && strToNat l == v)).length := by
  unfold parseInput
  rw [parseFold_nodes_count]
  simp

/-! ## Claim C9 — fatal error on a parseable graph -/

/-- C9 (code bug): the input `"0\n0 1"` parses fine (node 0 is declared),
but TreeLayering from the existing root 0 hits `childMap.get(1)` =
`undefined` and throws a `TypeError` — the error branch is reachable and the
failure is not a no-op. -/
theorem hangTree_fatal_on_parsed_graph :
    0 ∈ (parseInput "0\n0 1").nodes ∧
      hangTreeFromRoot (parseInput "0\n0 1") false 0 = none := by decide

/-! ## Claim C6 — cycle deduplication -/

/-- C6 counterexample: with two parallel self-loop edges on node 2,
CycleFinder reports the cycle `[2]` twice — the self-loop pass
(GraphCanvas.jsx:325-332) pushes one cycle per self-loop edge with no dedup
test, so the output contains two cycles with identical sorted node-id
sequences. -/
theorem detectCycles_duplicate_selfloop :
    detectCycles doubleLoopGraph false = [[2], [2]] ∧
      ¬ List.Pairwise (fun a b => sortAsc a ≠ sortAsc b)
          (detectCycles doubleLoopGraph false) := by decide

/-- `sortAsc` preserves length. -/
theorem sortAsc_length (l : List Nat) : (sortAsc l).length = l.length :=
  List.length_insertionSort _ _

/-- `sortAsc` is idempotent. -/
theorem sortAsc_idem (l : List Nat) : sortAsc (sortAsc l) = sortAsc l :=
  List.Sorted.insertionSort_eq (List.sorted_insertionSort _ l)

/-- The dedup test rewrites each stored cycle to itself or to its sorted
form, element by element. -/
theorem dedupSome_forall₂ (t : List Nat) (L : Nat) :
    ∀ l, List.Forall₂ (fun o n => n = o ∨ n = sortAsc o) l (dedupSome t L l).2 := by
  intro l
  induction l with
  | nil => exact List.Forall₂.nil
  | cons cy rest ih =>
    unfold dedupSome
    by_cases h : cy.length = L
    · rw [if_pos h]
      by_cases h2 : sortAsc cy = t
      · rw [if_pos h2]
        exact List.Forall₂.cons (Or.inr rfl) (List.forall₂_same.mpr (fun a _ => Or.inl rfl))
      · rw [if_neg h2]
        exact List.Forall₂.cons (Or.inr rfl) ih
    · rw [if_neg h]
      exact List.Forall₂.cons (Or.inl rfl) ih

/-- If the dedup test reports "not seen", no stored cycle of the candidate's
length has the candidate's sorted content. -/
theorem dedupSome_eq_false (t : List Nat) (L : Nat) :
    ∀ l, (dedupSome t L l).1 = false → ∀ cy ∈ l, cy.length = L → sortAsc cy ≠ t := by
  intro l
  induction l with
  | nil => intro _ cy hcy; simp at hcy
  | cons c rest ih =>
    intro hfalse cy hcy hlen
    unfold dedupSome at hfalse
    by_cases h : c.length = L
    · rw [if_pos h] at hfalse
      by_cases h2 : sortAsc c = t
      · rw [if_pos h2] at hfalse
        simp at hfalse
      · rw [if_neg h2] at hfalse
        rcases List.mem_cons.mp hcy with rfl | hcy
        · exact h2
        · exact ih hfalse cy hcy hlen
    · rw [if_neg h] at hfalse
      rcases List.mem_cons.mp hcy with rfl | hcy
      · exact absurd hlen h
      · exact ih hfalse cy hcy hlen

/-- Elementwise rewriting by `sortAsc` preserves each entry's length and
sorted content. -/
theorem forall₂_attr {l l' : List (List Nat)}
    (h : List.Forall₂ (fun o n => n = o ∨ n = sortAsc o) l l') :
    List.Forall₂ (fun o n => n.length = o.length ∧ sortAsc n = sortAsc o) l l' := by
  refine h.imp (fun a b hab => ?_)
  rcases hab with rfl | rfl
  exacts [⟨rfl, rfl⟩, ⟨sortAsc_length _, sortAsc_idem _⟩]

/-- A member of the right list of a `Forall₂` has a related member on the
left. -/
theorem forall₂_mem_right {α β : Type} {r : α → β → Prop} :
    ∀ {l₁ : List α} {l₂ : List β}, List.Forall₂ r l₁ l₂ → ∀ {b}, b ∈ l₂ → ∃ a ∈ l₁, r a b := by
  intro l₁ l₂ h
  induction h with
  | nil => intro b hb; simp at hb
  | cons hab _ ih =>
    intro b hb
    rcases List.mem_cons.mp hb with rfl | hb
    · exact ⟨_, List.mem_cons_self _ _, hab⟩
    · rcases ih hb with ⟨a, ha, har⟩
      exact ⟨a, List.mem_cons_of_mem _ ha, har⟩

/-- The multi-node dedup property only depends on each entry's length and
sorted content, so it survives the dedup test's in-place sorting. -/
theorem pairwise_of_attr :
    ∀ {l l' : List (List Nat)},
      List.Forall₂ (fun o n => n.length = o.length ∧ sortAsc n = sortAsc o) l l' →
      List.Pairwise (fun a b => 2 ≤ a.length → 2 ≤ b.length → sortAsc a ≠ sortAsc b) l →
      List.Pairwise (fun a b => 2 ≤ a.length → 2 ≤ b.length → sortAsc a ≠ sortAsc b) l' := by
  intro l l' h
  induction h with
  | nil => exact fun _ => List.Pairwise.nil
  | cons hab hrest ih =>
    intro hp
    rcases List.pairwise_cons.mp hp with ⟨ha, hp⟩
    refine List.Pairwise.cons (fun b' hb' h2a h2b => ?_) (ih hp)
    rcases forall₂_mem_right hrest hb' with ⟨b, hb, hattr⟩
    rw [hab.2, hattr.2]
    exact ha b hb (hab.1 ▸ h2a) (hattr.1 ▸ h2b)

/-- Appending a genuinely new cycle of length ≥ 2 preserves the multi-node
dedup property. -/
theorem pushCycleU_pairwise (st : UState) (c : List Nat)
    (h : List.Pairwise (fun a b => 2 ≤ a.length → 2 ≤ b.length → sortAsc a ≠ sortAsc b)
      st.allCycles) :
    List.Pairwise (fun a b => 2 ≤ a.length → 2 ≤ b.length → sortAsc a ≠ sortAsc b)
      (pushCycleU st c).allCycles := by
  have hmut := pairwise_of_attr (forall₂_attr (dedupSome_forall₂ (sortAsc c) c.length st.allCycles)) h
  by_cases hdup : (dedupSome (sortAsc c) c.length st.allCycles).1
  · simpa [pushCycleU, hdup] using hmut
  · rw [Bool.not_eq_true] at hdup
    simp only [pushCycleU, hdup, Bool.false_eq_true, if_false]
    rw [List.pairwise_append]
    refine ⟨hmut, by simp, fun a ha b hb h2a h2b heq => ?_⟩
    rw [List.mem_singleton.mp hb] at heq
    rcases forall₂_mem_right (forall₂_attr (dedupSome_forall₂ (sortAsc c) c.length st.allCycles)) ha
      with ⟨o, ho, hattr⟩
    by_cases hlen : o.length = c.length
    · exact dedupSome_eq_false (sortAsc c) c.length st.allCycles hdup o ho hlen
        (hattr.2.symm.trans heq)
    · apply hlen
      have := congrArg List.length heq
      rw [sortAsc_length, sortAsc_length] at this
      omega

/-- Folding a property-preserving step preserves the property. -/
theorem foldl_preserve {α σ : Type} (P : σ → Prop) (f : σ → α → σ)
    (hf : ∀ s a, P s → P (f s a)) : ∀ (l : List α) (s : σ), P s → P (l.foldl f s) := by
  intro l
  induction l with
  | nil => exact fun s h => h
  | cons a l ih => exact fun s h => ih _ (hf s a h)

/-- The undirected DFS pushes only cycles of length ≥ 2, each guarded by the
dedup test, so it preserves the multi-node dedup property for every fuel. -/
theorem dfsUndirected_pairwise (g : Graph) :
    ∀ (fuel nodeId : Nat) (parent : Int) (path : List Nat) (st : UState),
      List.Pairwise (fun a b => 2 ≤ a.length → 2 ≤ b.length → sortAsc a ≠ sortAsc b)
        st.allCycles →
      List.Pairwise (fun a b => 2 ≤ a.length → 2 ≤ b.length → sortAsc a ≠ sortAsc b)
        (dfsUndirected g fuel nodeId parent path st).allCycles := by
  intro fuel
  induction fuel with
  | zero => exact fun _ _ _ _ h => h
  | succ fuel ih =>
    intro nodeId parent path st h
    rw [dfsUndirected]
    refine foldl_preserve
      (fun (st : UState) => List.Pairwise (fun a b => 2 ≤ a.length → 2 ≤ b.length → sortAsc a ≠ sortAsc b)
        st.allCycles) _ (fun s e hs => ?_) _ _ ?_
    · dsimp only
      by_cases hmem : otherEnd e nodeId ∈ path
      · simp only [hmem, if_true]
        exact pushCycleU_pairwise _ _ hs
      · simp only [hmem, if_false]
        by_cases hvis : otherEnd e nodeId ∈ s.visited
        · simpa [hvis] using hs
        · simpa [hvis] using ih _ _ _ _ hs
    · exact h

/-- C6 amended: among the multi-node cycles of an undirected CycleFinder
run, no two reported cycles have the same sorted node-id sequence.  (The
self-loop pass is exempt: it pushes one cycle per self-loop edge with no
dedup test — see the counterexample — and the directed branch is not covered
by this guarantee.) -/
theorem detectCycles_undirected_multinode_dedup (g : Graph) :
    List.Pairwise (fun a b => 2 ≤ a.length → 2 ≤ b.length → sortAsc a ≠ sortAsc b)
      (detectCycles g false) := by
  unfold detectCycles detectCyclesUState
  simp only [Bool.false_eq_true, if_false]
  refine foldl_preserve
    (fun (st : UState) => List.Pairwise (fun a b => 2 ≤ a.length → 2 ≤ b.length → sortAsc a ≠ sortAsc b)
      st.allCycles) _ (fun s nid hs => ?_) _ _ ?_
  · by_cases hv : nid ∈ s.visited
    · simpa [hv] using hs
    · simpa [hv] using dfsUndirected_pairwise g _ _ _ _ _ hs
  · unfold selfLoopCycles
    generalize (g.edges.filter (·.isSelfLoop)) = es
    induction es with
    | nil => exact List.Pairwise.nil
    | cons e es ihe =>
      rw [List.map_cons]
      exact List.Pairwise.cons (fun b _ h2 => by simp at h2) ihe

/-! ## Claim C7 — discovery order of reported cycles -/

/-- C7 counterexample: on two disjoint triangles with the first declared in
node order 1, 0, 2, the first cycle is discovered as the path slice
`[1, 0, 2]`, but the dedup test for the second triangle sorts the stored
array in place (`cy.sort`, GraphCanvas.jsx:354), so the final output starts
with `[0, 1, 2]` — a reported cycle does not keep its discovery-order node
sequence. -/
theorem detectCycles_discovery_reordered :
    (detectCyclesUState twoTrianglesGraph).allCycles = [[0, 1, 2], [3, 4, 5]] ∧
      (detectCyclesUState twoTrianglesGraph).discovered = [[1, 0, 2], [3, 4, 5]] ∧
      (detectCyclesUState twoTrianglesGraph).allCycles ≠
        (detectCyclesUState twoTrianglesGraph).discovered := by decide

/-- Pointwise composition of `Forall₂` relations. -/
theorem forall₂_comp {α β γ : Type} {r : α → β → Prop} {s : β → γ → Prop} {t : α → γ → Prop}
    (h : ∀ a b c, r a b → s b c → t a c) :
    ∀ {l₁ : List α} {l₂ : List β} {l₃ : List γ},
      List.Forall₂ r l₁ l₂ → List.Forall₂ s l₂ l₃ → List.Forall₂ t l₁ l₃ := by
  intro l₁ l₂ l₃ h12
  induction h12 generalizing l₃ with
  | nil => intro h23; cases h23; exact List.Forall₂.nil
  | cons hab h12' ih =>
    intro h23
    cases h23 with
    | cons hbc h23' => exact List.Forall₂.cons (h _ _ _ hab hbc) (ih h23')

/-- Splitting a `Forall₂` whose left list is an append. -/
theorem forall₂_append_left {α β : Type} {r : α → β → Prop} :
    ∀ {a b : List α} {m : List β}, List.Forall₂ r (a ++ b) m →
      ∃ a' b', m = a' ++ b' ∧ List.Forall₂ r a a' ∧ List.Forall₂ r b b' := by
  intro a
  induction a with
  | nil => exact fun h => ⟨[], _, rfl, List.Forall₂.nil, h⟩
  | cons x xs ih =>
    intro b m h
    cases h with
    | cons hxy h' =>
      rcases ih h' with ⟨a', b', rfl, ha, hb⟩
      exact ⟨_ :: a', b', rfl, List.Forall₂.cons hxy ha, hb⟩

/-- The dedup test's in-place sorting fixes single-node cycles. -/
theorem forall₂_singletons_eq :
    ∀ {l l' : List (List Nat)},
      List.Forall₂ (fun o n => n = o ∨ n = sortAsc o) l l' →
      (∀ x ∈ l, ∃ v, x = [v]) → l' = l := by
  intro l l' h
  induction h with
  | nil => exact fun _ => rfl
  | cons hxy h' ih =>
    intro hs
    rcases hs _ (List.mem_cons_self _ _) with ⟨v, rfl⟩
    rw [ih (fun x hx => hs x (List.mem_cons_of_mem _ hx))]
    rcases hxy with rfl | rfl <;> rfl

/-- Every cycle pushed by the self-loop pass is a singleton. -/
theorem selfLoopCycles_singletons (g : Graph) :
    ∀ x ∈ selfLoopCycles g, ∃ v, x = [v] := by
  intro x hx
  rcases List.mem_map.mp hx with ⟨e, _, rfl⟩
  exact ⟨e.from_, rfl⟩

/-- One guarded push preserves the discovery decomposition: the self-loop
prefix is untouched and each later entry stays its discovery slice or that
slice sorted. -/
theorem pushCycleU_discovery (g : Graph) (st : UState) (c : List Nat)
    (h : ∃ rest, st.allCycles = selfLoopCycles g ++ rest ∧
      List.Forall₂ (fun disc out => out = disc ∨ out = sortAsc disc) st.discovered rest) :
    ∃ rest, (pushCycleU st c).allCycles = selfLoopCycles g ++ rest ∧
      List.Forall₂ (fun disc out => out = disc ∨ out = sortAsc disc)
        (pushCycleU st c).discovered rest := by
  rcases h with ⟨rest, hsplit, hrel⟩
  have hmut := dedupSome_forall₂ (sortAsc c) c.length st.allCycles
  rw [hsplit] at hmut
  rcases forall₂_append_left hmut with ⟨sl', rest', hm, hsl, hrest⟩
  rw [forall₂_singletons_eq hsl (selfLoopCycles_singletons g)] at hm
  have hrel' : List.Forall₂ (fun disc out => out = disc ∨ out = sortAsc disc)
      st.discovered rest' := by
    refine forall₂_comp (fun d o n hdo hon => ?_) hrel hrest
    rcases hon with rfl | rfl
    · exact hdo
    · rcases hdo with rfl | rfl
      · exact Or.inr rfl
      · exact Or.inr (sortAsc_idem d)
  by_cases hdup : (dedupSome (sortAsc c) c.length st.allCycles).1
  · refine ⟨rest', ?_, ?_⟩
    · simp only [pushCycleU, hdup, if_true]
      rw [hsplit]
      exact hm
    · simpa [pushCycleU, hdup] using hrel'
  · rw [Bool.not_eq_true] at hdup
    refine ⟨rest' ++ [c], ?_, ?_⟩
    · simp only [pushCycleU, hdup, Bool.false_eq_true, if_false]
      rw [hsplit, hm, List.append_assoc]
    · simp only [pushCycleU, hdup, Bool.false_eq_true, if_false]
      exact List.rel_append hrel' (List.Forall₂.cons (Or.inl rfl) List.Forall₂.nil)

/-- The undirected DFS preserves the discovery decomposition for every
fuel. -/
theorem dfsUndirected_discovery (g : Graph) :
    ∀ (fuel nodeId : Nat) (parent : Int) (path : List Nat) (st : UState),
      (∃ rest, st.allCycles = selfLoopCycles g ++ rest ∧
        List.Forall₂ (fun disc out => out = disc ∨ out = sortAsc disc) st.discovered rest) →
      ∃ rest, (dfsUndirected g fuel nodeId parent path st).allCycles =
          selfLoopCycles g ++ rest ∧
        List.Forall₂ (fun disc out => out = disc ∨ out = sortAsc disc)
          (dfsUndirected g fuel nodeId parent path st).discovered rest := by
  intro fuel
  induction fuel with
  | zero => exact fun _ _ _ _ h => h
  | succ fuel ih =>
    intro nodeId parent path st h
    rw [dfsUndirected]
    refine foldl_preserve
      (fun (st : UState) => ∃ rest, st.allCycles = selfLoopCycles g ++ rest ∧
        List.Forall₂ (fun disc out => out = disc ∨ out = sortAsc disc) st.discovered rest)
      _ (fun s e hs => ?_) _ _ ?_
    · dsimp only
      by_cases hmem : otherEnd e nodeId ∈ path
      · simp only [hmem, if_true]
        exact pushCycleU_discovery g _ _ hs
      · simp only [hmem, if_false]
        by_cases hvis : otherEnd e nodeId ∈ s.visited
        · simpa [hvis] using hs
        · simpa [hvis] using ih _ _ _ _ hs
    · exact h

/-- C7 amended: in an undirected CycleFinder run the output is the self-loop
cycles followed by the multi-node cycles in discovery order, where each
multi-node cycle is the DFS path slice recorded at its discovery
(`discovered`) either verbatim or sorted ascending — the dedup test's
in-place `cy.sort` may replace a stored slice by its sorted form, and
nothing else changes a reported cycle. -/
theorem detectCycles_undirected_discovery (g : Graph) :
    ∃ rest, (detectCyclesUState g).allCycles = selfLoopCycles g ++ rest ∧
      List.Forall₂ (fun disc out => out = disc ∨ out = sortAsc disc)
        (detectCyclesUState g).discovered rest := by
  unfold detectCyclesUState
  refine foldl_preserve
    (fun (st : UState) => ∃ rest, st.allCycles = selfLoopCycles g ++ rest ∧
      List.Forall₂ (fun disc out => out = disc ∨ out = sortAsc disc) st.discovered rest)
    _ (fun s nid hs => ?_) _ _ ?_
  · by_cases hv : nid ∈ s.visited
    · simpa [hv] using hs
    · simpa [hv] using dfsUndirected_discovery g _ _ _ _ _ hs
  · exact ⟨[], by simp, List.Forall₂.nil⟩

/-! ## Claim C10 — PathFinder without a valid selection -/

/-- The selection mechanism keeps the selected ids distinct: clicking only
ever adds an id that is not yet selected (GraphCanvas.jsx:117-120). -/
theorem addSelectedNode_nodup (sel : List Nat) (id : Nat) (h : sel.Nodup) :
    (addSelectedNode sel id).Nodup := by
  unfold addSelectedNode
  split
  · split
    · exact h
    · simpa [List.nodup_append] using ⟨h, by assumption⟩
  · exact h

/-- C10: with any selection other than exactly two distinct node ids (the
selection list is duplicate-free by construction, `addSelectedNode_nodup`),
`findAllPathsBetweenNodes` produces the empty path list, emits no highlight
events and never suspends for the paced trace — the run is a report-nothing
no-op. -/
theorem findAllPaths_empty_selection (g : Graph) (directed : Bool) (sel : List Nat)
    (hnodup : sel.Nodup) (hsel : sel.dedup.length ≠ 2) :
    findAllPathsBetweenNodes g directed sel = { paths := [], events := [], sleeps := 0 } := by
  rw [List.dedup_eq_self.mpr hnodup] at hsel
  cases sel with
  | nil => rfl
  | cons a t =>
    cases t with
    | nil => rfl
    | cons b t2 =>
      cases t2 with
      | nil => exact absurd rfl hsel
      | cons c t3 => rfl

/-- C10 witness: a single selected node on the scenario graph. -/
theorem findAllPaths_empty_selection_witness :
    ([0] : List Nat).Nodup ∧ ([0] : List Nat).dedup.length ≠ 2 ∧
      findAllPathsBetweenNodes scenarioGraph false [0] =
        { paths := [], events := [], sleeps := 0 } :=
  ⟨by decide, by decide, findAllPaths_empty_selection scenarioGraph false [0] (by decide) (by decide)⟩

/-! ## Claim C8 — tree layering levels are BFS distances

The proof goes through three stages: (1) `buildChildMap` succeeds on a graph
whose edges mention only declared nodes and its entry for `k` holds exactly
the §4.2 neighbors of `k`; (2) `bfsLoop` on a single-level queue performs
one `processFrontier` step (`bfsLoop_phase`); (3) the frontier of level `d`
is exactly the set of nodes at BFS distance `d` (`bfsLoop_master`). -/

/-- `cmPush` keeps the key list unchanged. -/
theorem cmPush_keys :
    ∀ {cm cm' : List (Nat × List Nat)} {k v : Nat}, cmPush cm k v = some cm' →
      cm'.map (fun p => p.1) = cm.map (fun p => p.1) := by
  intro cm
  induction cm with
  | nil => intro cm' k v h; simp [cmPush] at h
  | cons p rest ih =>
    intro cm' k v h
    obtain ⟨k', vs⟩ := p
    unfold cmPush at h
    by_cases hk : k' = k
    · rw [if_pos hk] at h
      cases h
      simp
    · rw [if_neg hk] at h
      cases hrec : cmPush rest k v with
      | none => rw [hrec] at h; simp at h
      | some rest' =>
        rw [hrec] at h
        simp only [Option.map_some', Option.some_inj] at h
        subst h
        simp [ih hrec]

/-- `cmPush` succeeds exactly on present keys. -/
theorem cmPush_exists :
    ∀ {cm : List (Nat × List Nat)} {k : Nat} (v : Nat), k ∈ cm.map (fun p => p.1) →
      ∃ cm', cmPush cm k v = some cm' := by
  intro cm
  induction cm with
  | nil => intro k v h; simp at h
  | cons p rest ih =>
    intro k v h
    obtain ⟨k', vs⟩ := p
    by_cases hk : k' = k
    · exact ⟨_, by unfold cmPush; rw [if_pos hk]⟩
    · rcases List.mem_map.mp h with ⟨q, hq, hq1⟩
      rcases List.mem_cons.mp hq with rfl | hq
      · exact absurd hq1 hk
      · rcases ih v (List.mem_map.mpr ⟨q, hq, hq1⟩) with ⟨rest', hrest⟩
        exact ⟨_, by unfold cmPush; rw [if_neg hk, hrest]; rfl⟩

/-- What `cmPush` does to every lookup: append `v` to key `k`'s entry, leave
the rest alone. -/
theorem cmPush_lookup :
    ∀ {cm cm' : List (Nat × List Nat)} {k v : Nat}, cmPush cm k v = some cm' →
      ∀ k', cmLookup cm' k' =
        if k' = k then (cmLookup cm k').map (· ++ [v]) else cmLookup cm k' := by
  intro cm
  induction cm with
  | nil => intro cm' k v h; simp [cmPush] at h
  | cons p rest ih =>
    intro cm' k v h k'
    obtain ⟨k₀, vs⟩ := p
    unfold cmPush at h
    by_cases hk : k₀ = k
    · rw [if_pos hk] at h
      cases h
      subst hk
      by_cases hk' : k' = k₀
      · subst hk'
        simp [cmLookup]
      · simp [cmLookup, List.find?_cons, beq_iff_eq, hk', Ne.symm hk']
    · rw [if_neg hk] at h
      cases hrec : cmPush rest k v with
      | none => rw [hrec] at h; simp at h
      | some rest' =>
        rw [hrec] at h
        simp only [Option.map_some', Option.some_inj] at h
        subst h
        by_cases hk' : k' = k₀
        · subst hk'
          have hne : k' ≠ k := fun he => hk (he ▸ rfl)
          simp [cmLookup, hne]
        · have h1 : cmLookup ((k₀, vs) :: rest') k' = cmLookup rest' k' := by
            unfold cmLookup
            rw [List.find?_cons_of_neg _ (by simp [Ne.symm hk'])]
          have h2 : cmLookup ((k₀, vs) :: rest) k' = cmLookup rest k' := by
            unfold cmLookup
            rw [List.find?_cons_of_neg _ (by simp [Ne.symm hk'])]
          rw [h1, h2]
          exact ih hrec k'

/-- Lookup in the initial child map: an empty list for every listed id. -/
theorem cmInit_lookup (ns : List Nat) (k : Nat) :
    cmLookup (ns.map (fun n => (n, ([] : List Nat)))) k =
      if k ∈ ns then some [] else none := by
  induction ns with
  | nil => simp [cmLookup]
  | cons n ns ih =>
    by_cases hk : n = k
    · subst hk
      simp [cmLookup]
    · have h1 : cmLookup ((n, ([] : List Nat)) :: ns.map (fun n => (n, ([] : List Nat)))) k =
          cmLookup (ns.map (fun n => (n, ([] : List Nat)))) k := by
        unfold cmLookup
        rw [List.find?_cons_of_neg _ (by simp [hk])]
      rw [List.map_cons, h1, ih]
      exact (if_congr (by simp [List.mem_cons, Ne.symm hk]) rfl rfl).symm

/-- One `childMap` edge step keeps the key list unchanged. -/
theorem buildChildMapStep_keys {directed : Bool} {cm cm' : List (Nat × List Nat)} {e : Edge}
    (h : buildChildMapStep directed cm e = some cm') :
    cm'.map (fun p => p.1) = cm.map (fun p => p.1) := by
  unfold buildChildMapStep at h
  by_cases hs : e.isSelfLoop
  · rw [if_pos hs] at h
    cases h
    rfl
  · rw [if_neg hs] at h
    by_cases hd : directed
    · rw [if_pos hd] at h
      exact cmPush_keys h
    · rw [if_neg hd] at h
      cases h1 : cmPush cm e.from_ e.to_ with
      | none => rw [h1] at h; simp at h
      | some cm₁ =>
        rw [h1] at h
        exact (cmPush_keys h).trans (cmPush_keys h1)

/-- One `childMap` edge step appends exactly the edge's contribution to
every entry. -/
theorem buildChildMapStep_lookup {directed : Bool} {cm cm' : List (Nat × List Nat)} {e : Edge}
    (h : buildChildMapStep directed cm e = some cm') (k : Nat) :
    cmLookup cm' k = (cmLookup cm k).map (· ++ edgeChildren directed k [e]) := by
  unfold buildChildMapStep at h
  by_cases hs : e.isSelfLoop
  · rw [if_pos hs] at h
    cases h
    cases hlk : cmLookup cm k <;> simp [edgeChildren, hs, hlk]
  · rw [if_neg hs] at h
    by_cases hd : directed
    · rw [if_pos hd] at h
      rw [cmPush_lookup h k]
      by_cases hk : k = e.from_
      · rw [if_pos hk]
        cases hlk : cmLookup cm k <;> simp [edgeChildren, hs, hd, hlk, hk]
      · rw [if_neg hk]
        cases hlk : cmLookup cm k <;>
          simp [edgeChildren, hs, hd, hlk, hk, Ne.symm hk]
    · rw [if_neg hd] at h
      cases h1 : cmPush cm e.from_ e.to_ with
      | none => rw [h1] at h; simp at h
      | some cm₁ =>
        rw [h1] at h
        rw [cmPush_lookup h k, cmPush_lookup h1 k]
        rw [Bool.not_eq_true] at hd
        by_cases hkf : k = e.from_ <;> by_cases hkt : k = e.to_
        · cases hlk : cmLookup cm k <;>
            simp [edgeChildren, hs, hd, hlk, ← hkf, ← hkt]
        · cases hlk : cmLookup cm k <;>
            simp [edgeChildren, hs, hd, hlk, ← hkf, hkt, Ne.symm hkt]
        · cases hlk : cmLookup cm k <;>
            simp [edgeChildren, hs, hd, hlk, hkf, Ne.symm hkf, ← hkt]
        · cases hlk : cmLookup cm k <;>
            simp [edgeChildren, hs, hd, hlk, hkf, Ne.symm hkf, hkt, Ne.symm hkt]

/-- `edgeChildren` distributes over edge-list append. -/
theorem edgeChildren_append (directed : Bool) (k : Nat) (es₁ es₂ : List Edge) :
    edgeChildren directed k (es₁ ++ es₂) =
      edgeChildren directed k es₁ ++ edgeChildren directed k es₂ := by
  unfold edgeChildren
  rw [List.flatMap_append]

/-- Folding `buildChildMapStep` preserves the key list. -/
theorem buildFold_keys :
    ∀ (es : List Edge) (directed : Bool) (cm₀ cm : List (Nat × List Nat)),
      List.foldlM (buildChildMapStep directed) cm₀ es = some cm →
      cm.map (fun p => p.1) = cm₀.map (fun p => p.1) := by
  intro es
  induction es with
  | nil =>
    intro dir cm₀ cm h
    simp only [List.foldlM_nil, Option.pure_def, Option.some_inj] at h
    rw [h]
  | cons e es ih =>
    intro dir cm₀ cm h
    rw [List.foldlM_cons] at h
    cases hstep : buildChildMapStep dir cm₀ e with
    | none => rw [hstep] at h; simp at h
    | some cm₁ =>
      rw [hstep] at h
      exact (ih dir cm₁ cm h).trans (buildChildMapStep_keys hstep)

/-- Folding `buildChildMapStep` appends each edge's contribution to every
entry, in edge order. -/
theorem buildFold_lookup :
    ∀ (es : List Edge) (directed : Bool) (cm₀ cm : List (Nat × List Nat)),
      List.foldlM (buildChildMapStep directed) cm₀ es = some cm → ∀ k,
      cmLookup cm k = (cmLookup cm₀ k).map (· ++ edgeChildren directed k es) := by
  intro es
  induction es with
  | nil =>
    intro dir cm₀ cm h k
    simp only [List.foldlM_nil, Option.pure_def, Option.some_inj] at h
    cases hlk : cmLookup cm₀ k <;> simp [← h, edgeChildren, hlk]
  | cons e es ih =>
    intro dir cm₀ cm h k
    rw [List.foldlM_cons] at h
    cases hstep : buildChildMapStep dir cm₀ e with
    | none => rw [hstep] at h; simp at h
    | some cm₁ =>
      rw [hstep] at h
      rw [ih dir cm₁ cm h k, buildChildMapStep_lookup hstep k]
      have : edgeChildren dir k (e :: es) =
          edgeChildren dir k [e] ++ edgeChildren dir k es := by
        have := edgeChildren_append dir k [e] es
        simpa using this
      rw [this]
      cases hlk : cmLookup cm₀ k <;> simp [hlk]

/-- Folding `buildChildMapStep` succeeds when every non-self-loop edge's
endpoints are keys. -/
theorem buildFold_some :
    ∀ (es : List Edge) (directed : Bool) (cm₀ : List (Nat × List Nat)),
      (∀ e ∈ es, e.isSelfLoop = false →
        e.from_ ∈ cm₀.map (fun p => p.1) ∧ e.to_ ∈ cm₀.map (fun p => p.1)) →
      ∃ cm, List.foldlM (buildChildMapStep directed) cm₀ es = some cm := by
  intro es
  induction es with
  | nil => intro dir cm₀ _; exact ⟨cm₀, rfl⟩
  | cons e es ih =>
    intro dir cm₀ hes
    have hstep : ∃ cm₁, buildChildMapStep dir cm₀ e = some cm₁ := by
      unfold buildChildMapStep
      by_cases hs : e.isSelfLoop
      · rw [if_pos hs]
        exact ⟨cm₀, rfl⟩
      · rw [if_neg hs]
        have hkeys := hes e (List.mem_cons_self _ _) (by simpa using hs)
        by_cases hd : dir = true
        · rw [if_pos hd]
          exact cmPush_exists _ hkeys.1
        · rw [if_neg hd]
          rcases cmPush_exists e.to_ hkeys.1 with ⟨cm₁, h1⟩
          rcases cmPush_exists e.from_ ((cmPush_keys h1).symm ▸ hkeys.2) with ⟨cm₂, h2⟩
          exact ⟨cm₂, by rw [h1]; exact h2⟩
    rcases hstep with ⟨cm₁, hstep⟩
    have hkeys₁ : cm₁.map (fun p => p.1) = cm₀.map (fun p => p.1) :=
      buildChildMapStep_keys hstep
    rcases ih dir cm₁ (fun e' he' hs' => hkeys₁ ▸ hes e' (List.mem_cons_of_mem _ he') hs')
      with ⟨cm, hfold⟩
    exact ⟨cm, by rw [List.foldlM_cons, hstep]; exact hfold⟩

/-- The child map exists on a graph whose edges mention only declared
nodes. -/
theorem buildChildMap_some (g : Graph) (directed : Bool)
    (hclosed : ∀ e ∈ g.edges, e.from_ ∈ g.nodes ∧ e.to_ ∈ g.nodes) :
    ∃ cm, buildChildMap g directed = some cm := by
  unfold buildChildMap
  refine buildFold_some g.edges directed _ (fun e he _ => ?_)
  have h := hclosed e he
  constructor <;> simp [List.map_map, Function.comp, List.mem_dedup] <;> tauto

/-- The child map's keys are the distinct declared node ids. -/
theorem buildChildMap_keys {g : Graph} {directed : Bool} {cm : List (Nat × List Nat)}
    (h : buildChildMap g directed = some cm) :
    cm.map (fun p => p.1) = g.nodes.dedup := by
  have := buildFold_keys g.edges directed _ cm h
  rw [this, List.map_map]
  have hid : ((fun p => (p : Nat × List Nat).1) ∘ fun n => (n, ([] : List Nat))) = id := rfl
  rw [hid, List.map_id]

/-- The child map entry of `k`: present iff `k` is declared, holding the
edge-list contributions of `k`. -/
theorem buildChildMap_lookup {g : Graph} {directed : Bool} {cm : List (Nat × List Nat)}
    (h : buildChildMap g directed = some cm) (k : Nat) :
    cmLookup cm k =
      if k ∈ g.nodes then some (edgeChildren directed k g.edges) else none := by
  have := buildFold_lookup g.edges directed _ cm h k
  rw [this, cmInit_lookup]
  by_cases hk : k ∈ g.nodes
  · rw [if_pos (List.mem_dedup.mpr hk), if_pos hk]
    simp
  · rw [if_neg (fun hc => hk (List.mem_dedup.mp hc)), if_neg hk]
    simp

/-- Membership in an edge list's contribution for `k` is membership in the
§4.2 neighbor list of `k` over the same edge list. -/
theorem edgeChildren_mem_aux (directed : Bool) (k x : Nat) :
    ∀ es : List Edge,
      (x ∈ edgeChildren directed k es ↔ x ∈ getNeighbors ⟨[], es⟩ directed k) := by
  intro es
  induction es with
  | nil => by_cases hd : directed = true <;> simp [edgeChildren, getNeighbors, hd]
  | cons e es ih =>
    by_cases hd : directed = true <;>
      by_cases hs : e.isSelfLoop = true <;>
        by_cases hf : e.from_ = k <;>
          by_cases ht : e.to_ = k <;>
            simp [edgeChildren, getNeighbors, List.filter_cons, hd, hs, hf, ht] at ih ⊢ <;>
              rw [ih]

/-- The child map's entry content for `k` is, as a set, the §4.2 neighbor
list of `k`. -/
theorem edgeChildren_mem (g : Graph) (directed : Bool) (k x : Nat) :
    x ∈ edgeChildren directed k g.edges ↔ x ∈ getNeighbors g directed k :=
  edgeChildren_mem_aux directed k x g.edges

/-- Neighbors of a closed graph are declared nodes. -/
theorem getNeighbors_subset_nodes (g : Graph) (directed : Bool)
    (hclosed : ∀ e ∈ g.edges, e.from_ ∈ g.nodes ∧ e.to_ ∈ g.nodes) (k : Nat) :
    ∀ x ∈ getNeighbors g directed k, x ∈ g.nodes := by
  intro x hx
  unfold getNeighbors at hx
  by_cases hd : directed = true
  · rw [if_pos hd] at hx
    rcases List.mem_map.mp hx with ⟨e, he, rfl⟩
    exact (hclosed e (List.mem_filter.mp he).1).2
  · rw [if_neg hd] at hx
    rcases List.mem_map.mp hx with ⟨e, he, rfl⟩
    have := hclosed e (List.mem_filter.mp he).1
    split <;> tauto

/-- Reachability within `k + 1` hops: within `k` hops or one hop further. -/
theorem reachList_succ_mem (g : Graph) (directed : Bool) (root k x : Nat) :
    x ∈ reachList g directed root (k + 1) ↔
      x ∈ reachList g directed root k ∨
        ∃ m ∈ reachList g directed root k, x ∈ getNeighbors g directed m := by
  simp [reachList, List.mem_append, List.mem_flatMap]

/-- `reachList` is monotone in the hop bound. -/
theorem reachList_mono (g : Graph) (directed : Bool) (root : Nat) :
    ∀ {j l : Nat}, j ≤ l → ∀ x ∈ reachList g directed root j,
      x ∈ reachList g directed root l := by
  intro j l hjl
  induction l with
  | zero =>
    intro x hx
    rwa [Nat.le_zero.mp hjl] at hx
  | succ l ihl =>
    intro x hx
    rcases Nat.eq_or_lt_of_le hjl with rfl | hlt
    · exact hx
    · exact (reachList_succ_mem g directed root l x).mpr
        (Or.inl (ihl (Nat.lt_succ_iff.mp hlt) x hx))

/-- Once one hop adds nothing, reachability has stabilized. -/
theorem reachList_stab (g : Graph) (directed : Bool) (root : Nat) (e : Nat)
    (hstab : ∀ x, x ∈ reachList g directed root (e + 1) → x ∈ reachList g directed root e) :
    ∀ l, e ≤ l → ∀ x, x ∈ reachList g directed root l → x ∈ reachList g directed root e := by
  intro l
  induction l with
  | zero => intro hle x hx; rwa [Nat.le_zero.mp hle]
  | succ l ihl =>
    intro hle x hx
    rcases Nat.eq_or_lt_of_le hle with rfl | hlt
    · exact hx
    · have hle' : e ≤ l := Nat.lt_succ_iff.mp hlt
      rcases (reachList_succ_mem g directed root l x).mp hx with hx | ⟨m, hm, hxm⟩
      · exact ihl hle' x hx
      · have hm' := ihl hle' m hm
        exact hstab x ((reachList_succ_mem g directed root e x).mpr
          (Or.inr ⟨m, hm', hxm⟩))

/-- Reachable ids of a closed graph are declared nodes. -/
theorem reachList_subset_nodes (g : Graph) (directed : Bool) (root : Nat)
    (hroot : root ∈ g.nodes)
    (hclosed : ∀ e ∈ g.edges, e.from_ ∈ g.nodes ∧ e.to_ ∈ g.nodes) :
    ∀ k x, x ∈ reachList g directed root k → x ∈ g.nodes := by
  intro k
  induction k with
  | zero =>
    intro x hx
    rcases List.mem_singleton.mp hx with rfl
    exact hroot
  | succ k ih =>
    intro x hx
    rcases (reachList_succ_mem g directed root k x).mp hx with hx | ⟨m, _, hxm⟩
    · exact ih x hx
    · exact getNeighbors_subset_nodes g directed hclosed m x hxm

/-- Appending a level bucket at the current length. -/
theorem addToLevel_length_eq (Ls : List (List Nat)) (d n : Nat) (h : Ls.length = d) :
    addToLevel Ls d n = Ls ++ [[n]] := by
  unfold addToLevel
  rw [if_neg (by omega)]
  simp [h]

/-- `getD` at the index just past a list reads the appended element. -/
theorem getD_append_len (Ls : List (List Nat)) (a : List Nat) :
    (Ls ++ [a]).getD Ls.length [] = a := by
  induction Ls with
  | nil => rfl
  | cons x Ls ih => simp [ih]

/-- `set` at the index just past a list replaces the appended element. -/
theorem set_append_len (Ls : List (List Nat)) (a x : List Nat) :
    (Ls ++ [a]).set Ls.length x = Ls ++ [x] := by
  induction Ls with
  | nil => rfl
  | cons y Ls ih => simp [ih]

/-- Pushing a node into the open level bucket. -/
theorem addToLevel_snoc (Ls : List (List Nat)) (d n : Nat) (acc : List Nat)
    (h : Ls.length = d) :
    addToLevel (Ls ++ [acc]) d n = Ls ++ [acc ++ [n]] := by
  unfold addToLevel
  rw [if_pos (by simp [← h])]
  rw [← h, getD_append_len, set_append_len]

/-- Folding pushes into the open level bucket appends them all. -/
theorem foldl_addToLevel_acc (d : Nat) (Ls : List (List Nat)) (h : Ls.length = d) :
    ∀ (rest acc : List Nat),
      rest.foldl (fun L n => addToLevel L d n) (Ls ++ [acc]) = Ls ++ [acc ++ rest] := by
  intro rest
  induction rest with
  | nil => intro acc; simp
  | cons r rest ih =>
    intro acc
    rw [List.foldl_cons, addToLevel_snoc Ls d r acc h, ih (acc ++ [r])]
    simp

/-- A nonempty visit batch at level `d = Ls.length` becomes a fresh level
bucket holding exactly the batch. -/
theorem foldl_addToLevel_eq (Ls : List (List Nat)) (d : Nat) (newly : List Nat)
    (h : Ls.length = d) (hne : newly ≠ []) :
    newly.foldl (fun L n => addToLevel L d n) Ls = Ls ++ [newly] := by
  cases newly with
  | nil => exact absurd rfl hne
  | cons n rest =>
    rw [List.foldl_cons, addToLevel_length_eq Ls d n h, foldl_addToLevel_acc d Ls h rest [n]]
    simp

/-- Visiting a node foreign to the child map leaves the measure unchanged. -/
theorem cmWeight_irrelevant (cm : List (Nat × List Nat)) (V : List Nat) (n : Nat)
    (h : ∀ p ∈ cm, p.1 ≠ n) :
    cmWeight cm (V ++ [n]) = cmWeight cm V := by
  unfold cmWeight
  have hf : List.filter (fun p => decide (p.1 ∉ V ++ [n])) cm =
      List.filter (fun p => decide (p.1 ∉ V)) cm := by
    apply List.filter_congr
    intro p hp
    simp [List.mem_append, h p hp]
  rw [hf]

/-- Visiting an unvisited key removes its contribution from the measure. -/
theorem cmWeight_remove (cm : List (Nat × List Nat))
    (hnd : (cm.map (fun p => p.1)).Nodup) (n : Nat) (ch : List Nat)
    (hl : cmLookup cm n = some ch) (V : List Nat) (hn : n ∉ V) :
    cmWeight cm (V ++ [n]) + (ch.length + 1) = cmWeight cm V := by
  induction cm with
  | nil => simp [cmLookup] at hl
  | cons p rest ih =>
    obtain ⟨k, vs⟩ := p
    rw [List.map_cons, List.nodup_cons] at hnd
    unfold cmWeight
    simp only [List.filter_cons]
    by_cases hk : k = n
    · subst hk
      have hch : vs = ch := by
        unfold cmLookup at hl
        simp [List.find?_cons] at hl
        exact hl
      have hlen : vs.length = ch.length := by rw [hch]
      have hrest : ∀ p ∈ rest, p.1 ≠ k := fun p hp he =>
        hnd.1 (he ▸ List.mem_map.mpr ⟨p, hp, rfl⟩)
      have hc1 : decide ((k, vs).1 ∉ V ++ [k]) = false := by simp
      have hc2 : decide ((k, vs).1 ∉ V) = true := by simp [hn]
      rw [hc1, hc2]
      simp only [Bool.false_eq_true, if_false, if_true, List.map_cons, List.sum_cons]
      have hirr := cmWeight_irrelevant rest V k hrest
      unfold cmWeight at hirr
      rw [hirr]
      omega
    · have hl2 : cmLookup rest n = some ch := by
        unfold cmLookup at hl ⊢
        rwa [List.find?_cons_of_neg _ (by simp [hk])] at hl
      have ihr := ih hnd.2 hl2
      unfold cmWeight at ihr
      by_cases hkV : k ∈ V
      · have hc1 : decide ((k, vs).1 ∉ V ++ [n]) = false := by simp [hkV]
        have hc2 : decide ((k, vs).1 ∉ V) = false := by simp [hkV]
        rw [hc1, hc2]
        simpa using ihr
      · have hc1 : decide ((k, vs).1 ∉ V ++ [n]) = true := by simp [hkV, hk]
        have hc2 : decide ((k, vs).1 ∉ V) = true := by simp [hkV]
        rw [hc1, hc2]
        simp only [if_true, List.map_cons, List.sum_cons]
        omega

/-- `processFrontier` extends `visited` by exactly the newly visited nodes,
in order. -/
theorem processFrontier_visited (cm : List (Nat × List Nat)) :
    ∀ (fr V V' nl ps : List Nat), processFrontier cm fr V = some (V', nl, ps) →
      V' = V ++ nl := by
  intro fr
  induction fr with
  | nil =>
    intro V V' nl ps h
    simp only [processFrontier, Option.some_inj] at h
    cases h
    simp
  | cons n fr ih =>
    intro V V' nl ps h
    unfold processFrontier at h
    by_cases hv : n ∈ V
    · rw [if_pos hv] at h
      exact ih V V' nl ps h
    · rw [if_neg hv] at h
      cases hlk : cmLookup cm n with
      | none => rw [hlk] at h; simp at h
      | some ch =>
        rw [hlk] at h
        cases hrec : processFrontier cm fr (V ++ [n]) with
        | none => rw [hrec] at h; simp at h
        | some r =>
          obtain ⟨V'', nl', ps'⟩ := r
          rw [hrec] at h
          simp only [Option.map_some', Option.some_inj] at h
          cases h
          rw [ih (V ++ [n]) _ _ _ hrec, List.append_assoc]
          simp

/-- A node is newly visited iff it is an unvisited frontier node. -/
theorem processFrontier_newly_mem (cm : List (Nat × List Nat)) :
    ∀ (fr V V' nl ps : List Nat), processFrontier cm fr V = some (V', nl, ps) →
      ∀ x, x ∈ nl ↔ x ∈ fr ∧ x ∉ V := by
  intro fr
  induction fr with
  | nil =>
    intro V V' nl ps h x
    simp only [processFrontier, Option.some_inj] at h
    cases h
    simp
  | cons n fr ih =>
    intro V V' nl ps h x
    unfold processFrontier at h
    by_cases hv : n ∈ V
    · rw [if_pos hv] at h
      rw [ih V V' nl ps h x, List.mem_cons]
      constructor
      · exact fun ⟨hf, hV⟩ => ⟨Or.inr hf, hV⟩
      · rintro ⟨rfl | hf, hV⟩
        · exact absurd hv hV
        · exact ⟨hf, hV⟩
    · rw [if_neg hv] at h
      cases hlk : cmLookup cm n with
      | none => rw [hlk] at h; simp at h
      | some ch =>
        rw [hlk] at h
        cases hrec : processFrontier cm fr (V ++ [n]) with
        | none => rw [hrec] at h; simp at h
        | some r =>
          obtain ⟨V'', nl', ps'⟩ := r
          rw [hrec] at h
          simp only [Option.map_some', Option.some_inj] at h
          cases h
          have hih := ih (V ++ [n]) _ _ _ hrec x
          simp only [List.mem_append, List.mem_singleton, not_or] at hih
          rw [List.mem_cons, List.mem_cons, hih]
          by_cases hxn : x = n
          · subst hxn
            simp [hv]
          · simp only [hxn, false_or]
            tauto

/-- No node is visited twice within one frontier pass. -/
theorem processFrontier_newly_nodup (cm : List (Nat × List Nat)) :
    ∀ (fr V V' nl ps : List Nat), processFrontier cm fr V = some (V', nl, ps) →
      nl.Nodup := by
  intro fr
  induction fr with
  | nil =>
    intro V V' nl ps h
    simp only [processFrontier, Option.some_inj] at h
    cases h
    exact List.nodup_nil
  | cons n fr ih =>
    intro V V' nl ps h
    unfold processFrontier at h
    by_cases hv : n ∈ V
    · rw [if_pos hv] at h
      exact ih V V' nl ps h
    · rw [if_neg hv] at h
      cases hlk : cmLookup cm n with
      | none => rw [hlk] at h; simp at h
      | some ch =>
        rw [hlk] at h
        cases hrec : processFrontier cm fr (V ++ [n]) with
        | none => rw [hrec] at h; simp at h
        | some r =>
          obtain ⟨V'', nl', ps'⟩ := r
          rw [hrec] at h
          simp only [Option.map_some', Option.some_inj] at h
          cases h
          refine List.nodup_cons.mpr ⟨fun hn => ?_, ih (V ++ [n]) _ _ _ hrec⟩
          have := (processFrontier_newly_mem cm fr (V ++ [n]) _ _ _ hrec n).mp hn
          simp at this

/-- A frontier pass succeeds when every unvisited frontier node is a key. -/
theorem processFrontier_some (cm : List (Nat × List Nat)) :
    ∀ (fr V : List Nat), (∀ x ∈ fr, x ∉ V → (cmLookup cm x).isSome) →
      ∃ r, processFrontier cm fr V = some r := by
  intro fr
  induction fr with
  | nil => exact fun V _ => ⟨_, rfl⟩
  | cons n fr ih =>
    intro V hkeys
    unfold processFrontier
    by_cases hv : n ∈ V
    · rw [if_pos hv]
      exact ih V (fun x hx => hkeys x (List.mem_cons_of_mem _ hx))
    · rw [if_neg hv]
      cases hlk : cmLookup cm n with
      | none =>
        have := hkeys n (List.mem_cons_self _ _) hv
        rw [hlk] at this
        simp at this
      | some ch =>
        rcases ih (V ++ [n]) (fun x hx hxv =>
          hkeys x (List.mem_cons_of_mem _ hx) (fun hc => hxv (List.mem_append_left _ hc)))
          with ⟨r, hr⟩
        rw [hr]
        exact ⟨_, rfl⟩

/-- Every enqueued child comes from some newly visited node's child list. -/
theorem processFrontier_pushed_mem (cm : List (Nat × List Nat)) :
    ∀ (fr V V' nl ps : List Nat), processFrontier cm fr V = some (V', nl, ps) →
      ∀ x ∈ ps, ∃ n, n ∈ nl ∧ ∃ ch, cmLookup cm n = some ch ∧ x ∈ ch := by
  intro fr
  induction fr with
  | nil =>
    intro V V' nl ps h x hx
    simp only [processFrontier, Option.some_inj] at h
    cases h
    simp at hx
  | cons n fr ih =>
    intro V V' nl ps h x hx
    unfold processFrontier at h
    by_cases hv : n ∈ V
    · rw [if_pos hv] at h
      exact ih V V' nl ps h x hx
    · rw [if_neg hv] at h
      cases hlk : cmLookup cm n with
      | none => rw [hlk] at h; simp at h
      | some ch =>
        rw [hlk] at h
        cases hrec : processFrontier cm fr (V ++ [n]) with
        | none => rw [hrec] at h; simp at h
        | some r =>
          obtain ⟨V'', nl', ps'⟩ := r
          rw [hrec] at h
          simp only [Option.map_some', Option.some_inj] at h
          cases h
          rcases List.mem_append.mp hx with hx | hx
          · exact ⟨n, List.mem_cons_self _ _, ch, hlk, (List.mem_filter.mp hx).1⟩
          · rcases ih (V ++ [n]) _ _ _ hrec x hx with ⟨m, hm, hch⟩
            exact ⟨m, List.mem_cons_of_mem _ hm, hch⟩

/-- Every child of a newly visited node is enqueued or already visited by
the end of the pass. -/
theorem processFrontier_pushed_cover (cm : List (Nat × List Nat)) :
    ∀ (fr V V' nl ps : List Nat), processFrontier cm fr V = some (V', nl, ps) →
      ∀ n ∈ nl, ∀ ch, cmLookup cm n = some ch → ∀ x ∈ ch, x ∈ ps ∨ x ∈ V' := by
  intro fr
  induction fr with
  | nil =>
    intro V V' nl ps h n hn
    simp only [processFrontier, Option.some_inj] at h
    cases h
    simp at hn
  | cons n₀ fr ih =>
    intro V V' nl ps h n hn ch hch x hx
    unfold processFrontier at h
    by_cases hv : n₀ ∈ V
    · rw [if_pos hv] at h
      exact ih V V' nl ps h n hn ch hch x hx
    · rw [if_neg hv] at h
      cases hlk : cmLookup cm n₀ with
      | none => rw [hlk] at h; simp at h
      | some ch₀ =>
        rw [hlk] at h
        cases hrec : processFrontier cm fr (V ++ [n₀]) with
        | none => rw [hrec] at h; simp at h
        | some r =>
          obtain ⟨V'', nl', ps'⟩ := r
          rw [hrec] at h
          simp only [Option.map_some', Option.some_inj] at h
          cases h
          have hV'' := processFrontier_visited cm fr (V ++ [n₀]) _ _ _ hrec
          rcases List.mem_cons.mp hn with rfl | hn'
          · have hcheq : ch = ch₀ := by
              rw [hch] at hlk
              exact Option.some_inj.mp hlk
            subst hcheq
            by_cases hxv : x ∈ V ++ [n]
            · right
              rw [hV'']
              exact List.mem_append_left _ hxv
            · left
              exact List.mem_append_left _ (List.mem_filter.mpr ⟨hx, by simpa using hxv⟩)
          · rcases ih (V ++ [n₀]) _ _ _ hrec n hn' ch hch x hx with hps | hV
            · exact Or.inl (List.mem_append_right _ hps)
            · exact Or.inr hV

/-- One frontier pass strictly consumes the BFS measure: the new frontier
and the visit count are paid for by the newly visited keys. -/
theorem processFrontier_weight (cm : List (Nat × List Nat))
    (hnd : (cm.map (fun p => p.1)).Nodup) :
    ∀ (fr V V' nl ps : List Nat), processFrontier cm fr V = some (V', nl, ps) →
      cmWeight cm V' + ps.length + nl.length ≤ cmWeight cm V := by
  intro fr
  induction fr with
  | nil =>
    intro V V' nl ps h
    simp only [processFrontier, Option.some_inj] at h
    cases h
    simp
  | cons n fr ih =>
    intro V V' nl ps h
    unfold processFrontier at h
    by_cases hv : n ∈ V
    · rw [if_pos hv] at h
      exact ih V V' nl ps h
    · rw [if_neg hv] at h
      cases hlk : cmLookup cm n with
      | none => rw [hlk] at h; simp at h
      | some ch =>
        rw [hlk] at h
        cases hrec : processFrontier cm fr (V ++ [n]) with
        | none => rw [hrec] at h; simp at h
        | some r =>
          obtain ⟨V'', nl', ps'⟩ := r
          rw [hrec] at h
          simp only [Option.map_some', Option.some_inj] at h
          cases h
          have hih := ih (V ++ [n]) _ _ _ hrec
          have hrem := cmWeight_remove cm hnd n ch hlk V hv
          have hfil : (ch.filter (· ∉ V ++ [n])).length ≤ ch.length :=
            List.length_filter_le _ _
          simp only [List.length_append, List.length_cons]
          omega

/-- Running `bfsLoop` on a queue holding the level-`d` frontier followed by
already-enqueued level-`d+1` entries performs one whole `processFrontier`
pass and continues at level `d + 1`.  Each pop costs one unit of fuel. -/
theorem bfsLoop_phase (cm : List (Nat × List Nat)) (d : Nat) :
    ∀ (fr : List Nat) (fuel : Nat) (tail V : List Nat) (Ls : List (List Nat)),
      bfsLoop cm (fr.length + fuel)
          (fr.map (fun n => (n, d)) ++ tail.map (fun n => (n, d + 1))) V Ls =
        match processFrontier cm fr V with
        | none => none
        | some r =>
          bfsLoop cm fuel ((tail ++ r.2.2).map (fun n => (n, d + 1))) r.1
            (r.2.1.foldl (fun L n => addToLevel L d n) Ls) := by
  intro fr
  induction fr with
  | nil =>
    intro fuel tail V Ls
    simp [processFrontier]
  | cons n fr ih =>
    intro fuel tail V Ls
    have hlen : (n :: fr).length + fuel = (fr.length + fuel) + 1 := by
      simp [List.length_cons, Nat.add_right_comm]
    rw [hlen, List.map_cons, List.cons_append]
    rw [bfsLoop]
    unfold processFrontier
    by_cases hv : n ∈ V
    · rw [if_pos hv, if_pos hv, ih fuel tail V Ls]
    · rw [if_neg hv, if_neg hv]
      cases hlk : cmLookup cm n with
      | none => rfl
      | some ch =>
        dsimp only
        have hq : (fr.map (fun n => (n, d)) ++ tail.map (fun n => (n, d + 1))) ++
            ((ch.filter (· ∉ V ++ [n])).map (fun c => (c, d + 1))) =
            fr.map (fun n => (n, d)) ++
              ((tail ++ ch.filter (· ∉ V ++ [n])).map (fun n => (n, d + 1))) := by
          rw [List.append_assoc, List.map_append]
        rw [hq, ih fuel (tail ++ ch.filter (· ∉ V ++ [n])) (V ++ [n]) (addToLevel Ls d n)]
        cases hpf : processFrontier cm fr (V ++ [n]) with
        | none => rfl
        | some r =>
          dsimp only [Option.map_some']
          rw [List.append_assoc, List.foldl_cons]

/-- Filtering by a stronger predicate keeps at most as many elements. -/
theorem filter_length_mono (l : List Nat) (p q : Nat → Bool)
    (himp : ∀ x, p x = true → q x = true) :
    (l.filter p).length ≤ (l.filter q).length := by
  induction l with
  | nil => simp
  | cons a l ih =>
    rw [List.filter_cons, List.filter_cons]
    by_cases hp : p a = true
    · rw [hp, himp a hp]
      simpa using ih
    · rw [Bool.not_eq_true] at hp
      rw [hp]
      by_cases hq : q a = true
      · rw [hq]
        simp only [Bool.false_eq_true, if_false, if_true, List.length_cons]
        omega
      · rw [Bool.not_eq_true] at hq
        rw [hq]
        simpa using ih

/-- Filtering by a strictly stronger predicate, witnessed at a member,
keeps strictly fewer elements. -/
theorem filter_length_lt (l : List Nat) (p q : Nat → Bool)
    (himp : ∀ x, p x = true → q x = true) (n : Nat) (hn : n ∈ l)
    (hnp : p n = false) (hnq : q n = true) :
    (l.filter p).length < (l.filter q).length := by
  induction l with
  | nil => simp at hn
  | cons a l ih =>
    rw [List.filter_cons, List.filter_cons]
    rcases List.mem_cons.mp hn with rfl | hn'
    · rw [hnp, hnq]
      simp only [Bool.false_eq_true, if_false, if_true, List.length_cons]
      exact Nat.lt_succ_of_le (filter_length_mono l p q himp)
    · by_cases hp : p a = true
      · rw [hp, himp a hp]
        simpa using ih hn'
      · rw [Bool.not_eq_true] at hp
        rw [hp]
        by_cases hq : q a = true
        · rw [hq]
          simp only [Bool.false_eq_true, if_false, if_true, List.length_cons]
          exact Nat.lt_succ_of_lt (ih hn')
        · rw [Bool.not_eq_true] at hq
          rw [hq]
          simpa using ih hn'

/-- When no frontier node is unvisited, reachability has stabilized below
the current level, so no node sits at any level ≥ it. -/
theorem reach_stab_char (g : Graph) (directed : Bool) (root : Nat) (d : Nat)
    (V fr : List Nat)
    (ha : ∀ x, (x ∈ V ∨ x ∈ fr) ↔ x ∈ reachList g directed root d)
    (hb : ∀ x, x ∈ V ↔ ∃ e, d = e + 1 ∧ x ∈ reachList g directed root e)
    (hsub : ∀ x ∈ fr, x ∈ V) :
    ∀ (x l : Nat), d ≤ l → ¬(x ∈ reachList g directed root l ∧
      ∀ j < l, x ∉ reachList g directed root j) := by
  rintro x l hdl ⟨hre, hnot⟩
  cases d with
  | zero =>
    have hr0 : root ∈ reachList g directed root 0 := by simp [reachList]
    rcases (ha root).mpr hr0 with h0 | h0
    · rcases (hb root).mp h0 with ⟨e, he, _⟩
      omega
    · rcases (hb root).mp (hsub root h0) with ⟨e, he, _⟩
      omega
  | succ e =>
    have hVe : ∀ y, y ∈ V ↔ y ∈ reachList g directed root e := by
      intro y
      constructor
      · intro hy
        rcases (hb y).mp hy with ⟨e', he', hye⟩
        have he2 : e' = e := by omega
        rwa [he2] at hye
      · intro hy
        exact (hb y).mpr ⟨e, rfl, hy⟩
    have hstab : ∀ y, y ∈ reachList g directed root (e + 1) →
        y ∈ reachList g directed root e := by
      intro y hy
      rcases (ha y).mpr hy with hyV | hyf
      · exact (hVe y).mp hyV
      · exact (hVe y).mp (hsub y hyf)
    exact hnot e (by omega) (reachList_stab g directed root e hstab l (by omega) x hre)

/-- BFS master invariant.  Starting a level with frontier `fr`, visited set
`V` and recorded levels `Ls`, the loop succeeds and appends per-level
buckets whose membership is exactly "BFS shortest hop-distance from the
root".  Induction is on the number of unvisited keys; the fuel bound pays
one unit per pop. -/
theorem bfsLoop_master (g : Graph) (directed : Bool) (root : Nat)
    (cm : List (Nat × List Nat))
    (hclosed : ∀ e ∈ g.edges, e.from_ ∈ g.nodes ∧ e.to_ ∈ g.nodes)
    (hbuild : buildChildMap g directed = some cm) :
    ∀ (m d : Nat) (fr V : List Nat) (Ls : List (List Nat)) (fuel : Nat),
      (g.nodes.dedup.filter (fun x => decide (x ∉ V))).length = m →
      (∀ x, (x ∈ V ∨ x ∈ fr) ↔ x ∈ reachList g directed root d) →
      (∀ x, x ∈ V ↔ ∃ e, d = e + 1 ∧ x ∈ reachList g directed root e) →
      (∀ x ∈ fr, x ∈ g.nodes) →
      Ls.length = d →
      fr.length + cmWeight cm V < fuel →
      ∃ tail, bfsLoop cm fuel (fr.map (fun n => (n, d))) V Ls = some (Ls ++ tail) ∧
        ∀ (x i : Nat), x ∈ tail.getD i [] ↔
          (x ∈ reachList g directed root (d + i) ∧
            ∀ j < d + i, x ∉ reachList g directed root j) := by
  intro m
  induction m using Nat.strong_induction_on with
  | _ m IH =>
    intro d fr V Ls fuel hm ha hb hfr hLs hfuel
    obtain ⟨fuel', rfl⟩ : ∃ f', fuel = fr.length + f' :=
      ⟨fuel - fr.length, by omega⟩
    have hphase := bfsLoop_phase cm d fr fuel' [] V Ls
    simp only [List.map_nil, List.append_nil, List.nil_append] at hphase
    have hkeysome : ∀ x ∈ fr, x ∉ V → (cmLookup cm x).isSome := by
      intro x hx _
      rw [buildChildMap_lookup hbuild x, if_pos (hfr x hx)]
      rfl
    rcases processFrontier_some cm fr V hkeysome with ⟨⟨V', nl, ps⟩, hpf⟩
    rw [hpf] at hphase
    dsimp only at hphase
    have hV' := processFrontier_visited cm fr V _ _ _ hpf
    have hnlm := processFrontier_newly_mem cm fr V _ _ _ hpf
    rcases eq_or_ne nl [] with rfl | hnlne
    · -- no new visits: the search is over
      have hps : ps = [] := by
        rw [List.eq_nil_iff_forall_not_mem]
        intro x hx
        rcases processFrontier_pushed_mem cm fr V _ _ _ hpf x hx with ⟨n, hn, _⟩
        simp at hn
      have hsub : ∀ x ∈ fr, x ∈ V := by
        intro x hx
        by_contra hxv
        have := (hnlm x).mpr ⟨hx, hxv⟩
        simp at this
      subst hps
      rw [List.append_nil] at hV'
      subst hV'
      refine ⟨[], ?_, ?_⟩
      · rw [hphase]
        simp [bfsLoop]
      · intro x i
        simp only [List.getD_nil, List.not_mem_nil, false_iff]
        exact fun hc =>
          reach_stab_char g directed root d _ fr ha hb hsub x (d + i) (by omega) hc
    · -- at least one new visit: recurse one level deeper
      have hLs' : nl.foldl (fun L n => addToLevel L d n) Ls = Ls ++ [nl] :=
        foldl_addToLevel_eq Ls d nl hLs hnlne
      rw [hLs'] at hphase
      -- the child-map entry of a frontier node is its neighbor list
      have hlook : ∀ n ∈ nl, ∀ ch, cmLookup cm n = some ch →
          (∀ x, x ∈ ch ↔ x ∈ getNeighbors g directed n) := by
        intro n hn ch hch x
        have hn_node : n ∈ g.nodes := hfr n ((hnlm n).mp hn).1
        rw [buildChildMap_lookup hbuild n, if_pos hn_node] at hch
        rw [← Option.some_inj.mp hch]
        exact edgeChildren_mem g directed n x
      have hVset : ∀ x, x ∈ V' ↔ x ∈ reachList g directed root d := by
        intro x
        rw [hV', List.mem_append]
        constructor
        · rintro (hx | hx)
          · rcases (hb x).mp hx with ⟨e, rfl, hxe⟩
            exact reachList_mono g directed root (by omega) x hxe
          · exact (ha x).mp (Or.inr ((hnlm x).mp hx).1)
        · intro hx
          rcases (ha x).mpr hx with hx | hx
          · exact Or.inl hx
          · by_cases hxv : x ∈ V
            · exact Or.inl hxv
            · exact Or.inr ((hnlm x).mpr ⟨hx, hxv⟩)
      have hb' : ∀ x, x ∈ V' ↔ ∃ e, d + 1 = e + 1 ∧ x ∈ reachList g directed root e := by
        intro x
        rw [hVset x]
        constructor
        · exact fun hx => ⟨d, rfl, hx⟩
        · rintro ⟨e, he, hxe⟩
          have hed : e = d := by omega
          rwa [hed] at hxe
      have ha' : ∀ x, (x ∈ V' ∨ x ∈ ps) ↔ x ∈ reachList g directed root (d + 1) := by
        intro x
        constructor
        · rintro (hx | hx)
          · exact reachList_mono g directed root (by omega) x ((hVset x).mp hx)
          · rcases processFrontier_pushed_mem cm fr V _ _ _ hpf x hx with
              ⟨n, hn, ch, hch, hxch⟩
            have hxn : x ∈ getNeighbors g directed n := (hlook n hn ch hch x).mp hxch
            have hnd : n ∈ reachList g directed root d := (ha n).mp (Or.inr ((hnlm n).mp hn).1)
            exact (reachList_succ_mem g directed root d x).mpr (Or.inr ⟨n, hnd, hxn⟩)
        · intro hx
          rcases (reachList_succ_mem g directed root d x).mp hx with hx | ⟨mm, hmm, hxm⟩
          · exact Or.inl ((hVset x).mpr hx)
          · rcases (ha mm).mpr hmm with hmV | hmf
            · rcases (hb mm).mp hmV with ⟨e, rfl, hme⟩
              have : x ∈ reachList g directed root (e + 1) :=
                (reachList_succ_mem g directed root e x).mpr (Or.inr ⟨mm, hme, hxm⟩)
              exact Or.inl ((hVset x).mpr this)
            · by_cases hmv : mm ∈ V
              · rcases (hb mm).mp hmv with ⟨e, rfl, hme⟩
                have : x ∈ reachList g directed root (e + 1) :=
                  (reachList_succ_mem g directed root e x).mpr (Or.inr ⟨mm, hme, hxm⟩)
                exact Or.inl ((hVset x).mpr this)
              · have hmnl : mm ∈ nl := (hnlm mm).mpr ⟨hmf, hmv⟩
                have hm_node : mm ∈ g.nodes := hfr mm hmf
                have hch : cmLookup cm mm = some (edgeChildren directed mm g.edges) := by
                  rw [buildChildMap_lookup hbuild mm, if_pos hm_node]
                have hxch : x ∈ edgeChildren directed mm g.edges :=
                  (edgeChildren_mem g directed mm x).mpr hxm
                rcases processFrontier_pushed_cover cm fr V _ _ _ hpf mm hmnl _ hch x hxch with
                  hxp | hxV
                · exact Or.inr hxp
                · exact Or.inl hxV
      have hfr' : ∀ x ∈ ps, x ∈ g.nodes := by
        intro x hx
        rcases processFrontier_pushed_mem cm fr V _ _ _ hpf x hx with ⟨n, hn, ch, hch, hxch⟩
        exact getNeighbors_subset_nodes g directed hclosed n x ((hlook n hn ch hch x).mp hxch)
      -- measure decreases: some new key got visited
      obtain ⟨n₀, hn₀⟩ : ∃ n₀, n₀ ∈ nl := by
        cases nl with
        | nil => exact absurd rfl hnlne
        | cons a t => exact ⟨a, List.mem_cons_self _ _⟩
      have hmdec : (g.nodes.dedup.filter (fun x => decide (x ∉ V'))).length < m := by
        rw [← hm]
        refine filter_length_lt g.nodes.dedup _ _ ?_ n₀
          (List.mem_dedup.mpr (hfr n₀ ((hnlm n₀).mp hn₀).1)) ?_ ?_
        · intro x hx
          simp only [decide_eq_true_eq] at hx ⊢
          intro hxV
          exact hx (hV' ▸ List.mem_append_left _ hxV)
        · simp only [decide_eq_false_iff_not, Decidable.not_not]
          exact hV' ▸ List.mem_append_right _ hn₀
        · simp only [decide_eq_true_eq]
          exact ((hnlm n₀).mp hn₀).2
      -- fuel still suffices
      have hwnd : (cm.map (fun p => p.1)).Nodup := by
        rw [buildChildMap_keys hbuild]
        exact List.nodup_dedup _
      have hweight := processFrontier_weight cm hwnd fr V _ _ _ hpf
      have hnl1 : 1 ≤ nl.length := List.length_pos.mpr hnlne
      have hfuel' : ps.length + cmWeight cm V' < fuel' := by omega
      rcases IH _ hmdec (d + 1) ps V' (Ls ++ [nl]) fuel' rfl ha' hb' hfr'
        (by simp [hLs]) hfuel' with ⟨tail', hrun, hchar⟩
      refine ⟨nl :: tail', ?_, ?_⟩
      · rw [hphase, hrun, List.append_assoc]
        rfl
      · intro x i
        cases i with
        | zero =>
          simp only [List.getD_cons_zero, Nat.add_zero]
          constructor
          · intro hx
            have hxf := (hnlm x).mp hx
            refine ⟨(ha x).mp (Or.inr hxf.1), fun j hj hxj => ?_⟩
            have hd1 : d = (d - 1) + 1 := by omega
            have hxd1 : x ∈ reachList g directed root (d - 1) :=
              reachList_mono g directed root (by omega) x hxj
            exact hxf.2 ((hb x).mpr ⟨d - 1, hd1, hxd1⟩)
          · rintro ⟨hxd, hnot⟩
            have hxVfr := (ha x).mpr hxd
            have hxnV : x ∉ V := by
              intro hxV
              rcases (hb x).mp hxV with ⟨e, rfl, hxe⟩
              exact hnot e (by omega) hxe
            rcases hxVfr with hxV | hxf
            · exact absurd hxV hxnV
            · exact (hnlm x).mpr ⟨hxf, hxnV⟩
        | succ i =>
          have := hchar x i
          rw [show d + 1 + i = d + (i + 1) from by omega] at this
          simpa [List.getD_cons_succ] using this

/-- C8: TreeLayering assigns BFS shortest hop-distances.  For every graph
whose edges mention only declared nodes and every declared root node, the
layering succeeds and a node appears in the level-`l` bucket of the
resulting level map iff it is reachable from the root within `l` hops under
the §4.2 neighbor semantics (directed when the graph is directed, undirected
otherwise, self-loops excluded) and not within fewer; nodes unreachable from
the root appear in no bucket. -/
theorem hangTree_levels (g : Graph) (directed : Bool) (root : Nat)
    (hroot : root ∈ g.nodes)
    (hclosed : ∀ e ∈ g.edges, e.from_ ∈ g.nodes ∧ e.to_ ∈ g.nodes) :
    ∃ levels, hangTreeFromRoot g directed root = some levels ∧
      ∀ (n l : Nat), n ∈ levelAt levels l ↔
        (n ∈ reachList g directed root l ∧
          ∀ j < l, n ∉ reachList g directed root j) := by
  rcases buildChildMap_some g directed hclosed with ⟨cm, hcm⟩
  have hweq : cmWeight cm [] = (cm.map (fun p => p.2.length + 1)).sum := by
    unfold cmWeight
    have hf : cm.filter (fun p => decide (p.1 ∉ ([] : List Nat))) = cm :=
      List.filter_eq_self.mpr (fun a _ => by simp)
    rw [hf]
  have hmaster := bfsLoop_master g directed root cm hclosed hcm
    (g.nodes.dedup.filter (fun x => decide (x ∉ ([] : List Nat)))).length
    0 [root] [] [] (bfsFuel cm) rfl
    (by intro x; simp [reachList])
    (by intro x; simp)
    (by intro x hx; rcases List.mem_singleton.mp hx with rfl; exact hroot)
    rfl
    (by unfold bfsFuel; simp [hweq])
  rcases hmaster with ⟨tail, hrun, hchar⟩
  refine ⟨tail, ?_, ?_⟩
  · unfold hangTreeFromRoot
    rw [hcm]
    simpa using hrun
  · intro n l
    have := hchar n l
    simpa [levelAt] using this

/-- C8 witness: the scenario graph with root 0 — the layering succeeds with
level map `[[0], [1, 3], [2, 4]]` (levels {0:0, 1:1, 3:1, 2:2, 4:2}), and
the theorem's distance characterization is obtained by applying it there. -/
theorem hangTree_levels_witness :
    hangTreeFromRoot scenarioGraph false 0 = some [[0], [1, 3], [2, 4]] ∧
      ∃ levels, hangTreeFromRoot scenarioGraph false 0 = some levels ∧
        ∀ (n l : Nat), n ∈ levelAt levels l ↔
          (n ∈ reachList scenarioGraph false 0 l ∧
            ∀ j < l, n ∉ reachList scenarioGraph false 0 j) :=
  ⟨by decide, hangTree_levels scenarioGraph false 0 (by decide) (by decide)⟩

end GraphCanvas
